import Mathlib

/-!
Verification of the sliding-puzzle engine of FotopoulosGeorge/letters-to-alaska.

Shallow embedding of the puzzle core:
  * `src/js/utils/ArrayUtils.js`  — board utilities, solvability analyzer, generator
  * `src/js/core/Validator.js`    — move validation, valid-move enumeration
  * `PuzzleLogic.js`              — the stateful `Puzzle` session (move/undo/state machine)

Conventions of the embedding:
  * a JS 2D board array is a `List (List Nat)`;
  * JS numbers used as board coordinates are `Int` (callers may pass negatives,
    which the code bounds-checks); tile values are `Nat`;
  * JS `null` results are `Option`; a JS `throw` is `Except.error`;
  * `Date.now()` is passed in as an explicit `now : Nat` argument;
  * `Math.random()`-driven choices are an explicit oracle `choices : Nat → Nat`,
    reduced modulo the candidate-list length (every realizable JS index sequence
    corresponds to some oracle, and vice versa);
  * event emission (`this.emit(...)`) is modelled by returning the list of
    emitted events alongside the new session value.
-/

/-- A (row, col) position as used throughout the JS code. -/
structure Pos where
  row : Int
  col : Int
deriving DecidableEq, Repr

/-- A 2D puzzle board, row-major, as in the JS code. -/
abbrev Board := List (List Nat)

/-- `MECHANICS.EMPTY_TILE` from Constants.js. -/
def EMPTY_TILE : Nat := 0

/-- A movement direction, `MECHANICS.DIRECTIONS` entry from Constants.js. -/
structure Direction where
  x : Int
  y : Int
  dirName : String
deriving DecidableEq, Repr

/-- `Object.values(MECHANICS.DIRECTIONS)` in insertion order UP, DOWN, LEFT, RIGHT. -/
def DIRECTIONS : List Direction :=
  [⟨0, -1, "up"⟩, ⟨0, 1, "down"⟩, ⟨-1, 0, "left"⟩, ⟨1, 0, "right"⟩]

/-- `create2DArray(rows, cols, fillValue)` from ArrayUtils.js. -/
def create2DArray (rows cols : Nat) (fillValue : Nat) : Board :=
  List.replicate rows (List.replicate cols fillValue)

/-- `clone2DArray(array)` from ArrayUtils.js: `array.map(row => [...row])`.
In value semantics the copy equals its source. -/
def clone2DArray (a : Board) : Board :=
  a.map (fun row => row)

/-- `flatten2DArray(array2D)` from ArrayUtils.js: `array2D.flat()`. -/
def flatten2DArray (a : Board) : List Nat :=
  a.flatten

/-- `createSolvedPuzzle(size)` from ArrayUtils.js: row-major `1..size²−1`
with `EMPTY_TILE` in the last cell.  The JS counter assigns
`row*size + col + 1` to every non-last cell. -/
def createSolvedPuzzle (size : Nat) : Board :=
  (List.range size).map (fun row =>
    (List.range size).map (fun col =>
      if row = size - 1 ∧ col = size - 1 then EMPTY_TILE
      else row * size + col + 1))

/-- Inner loop of `findPosition`: first index of `value` in a row, scanning
left to right (the JS `for (col...)` loop). -/
def findInRow (row : List Nat) (value : Nat) : Option Nat :=
  match row with
  | [] => none
  | x :: xs =>
    if x = value then some 0
    else (findInRow xs value).map (fun c => c + 1)

/-- `findPosition(puzzle, value)` from ArrayUtils.js: row-major scan,
first match wins, `null` (`none`) if absent. -/
def findPosition (puzzle : Board) (value : Nat) : Option Pos :=
  match puzzle with
  | [] => none
  | row :: rest =>
    match findInRow row value with
    | some c => some ⟨0, (c : Int)⟩
    | none => (findPosition rest value).map (fun pos => ⟨pos.row + 1, pos.col⟩)

/-- `findEmptyPosition(puzzle)` from ArrayUtils.js. -/
def findEmptyPosition (puzzle : Board) : Option Pos :=
  findPosition puzzle EMPTY_TILE

/-- `getValueAt(puzzle, row, col)` from ArrayUtils.js: bounds-checked read,
`null` (`none`) when out of bounds.  The JS bound test uses `puzzle.length`
for rows and `puzzle[0].length` for columns. -/
def getValueAt (puzzle : Board) (row col : Int) : Option Nat :=
  if 0 ≤ row ∧ row < (puzzle.length : Int) ∧
     0 ≤ col ∧ col < ((puzzle.headD []).length : Int) then
    (puzzle.get? row.toNat).bind (fun r => r.get? col.toNat)
  else
    none

/-- Unchecked 2D read (JS `puzzle[pos.row][pos.col]` on in-bounds positions). -/
def get2DD (p : Board) (pos : Pos) : Nat :=
  (p.getD pos.row.toNat []).getD pos.col.toNat 0

/-- Unchecked 2D write returning the new board
(JS `newPuzzle[pos.row][pos.col] = v` after a clone). -/
def set2D (p : Board) (pos : Pos) (v : Nat) : Board :=
  p.set pos.row.toNat ((p.getD pos.row.toNat []).set pos.col.toNat v)

/-- `swapPositions(puzzle, pos1, pos2)` from ArrayUtils.js.  The JS code
clones, saves `temp = new[pos1]`, assigns `new[pos1] := new[pos2]` (read
before any write), then `new[pos2] := temp`. -/
def swapPositions (p : Board) (pos1 pos2 : Pos) : Board :=
  let temp := get2DD p pos1
  set2D (set2D p pos1 (get2DD p pos2)) pos2 temp

/-- `getAdjacentPositions(row, col, size)` from ArrayUtils.js: the in-bounds
neighbors in the fixed DIRECTIONS order. -/
def getAdjacentPositions (row col : Int) (size : Nat) : List Pos :=
  DIRECTIONS.filterMap (fun direction =>
    let newRow := row + direction.y
    let newCol := col + direction.x
    if 0 ≤ newRow ∧ newRow < (size : Int) ∧ 0 ≤ newCol ∧ newCol < (size : Int) then
      some ⟨newRow, newCol⟩
    else
      none)

/-- `areAdjacent(pos1, pos2)` from ArrayUtils.js. -/
def areAdjacent (pos1 pos2 : Pos) : Bool :=
  let rowDiff := (pos1.row - pos2.row).natAbs
  let colDiff := (pos1.col - pos2.col).natAbs
  (rowDiff == 1 && colDiff == 0) || (rowDiff == 0 && colDiff == 1)

/-- `isPuzzleSolved(puzzle)` from ArrayUtils.js: cells are checked in
row-major order against the running counter; the last cell must be empty. -/
def isPuzzleSolved (p : Board) : Bool :=
  let size := p.length
  (List.range size).all (fun row =>
    (List.range size).all (fun col =>
      if row = size - 1 ∧ col = size - 1 then
        get2DD p ⟨(row : Int), (col : Int)⟩ == EMPTY_TILE
      else
        get2DD p ⟨(row : Int), (col : Int)⟩ == row * size + col + 1))

/-- The inversion-counting double loop of `isPuzzleSolvable`: for each
element, count later elements that are smaller. -/
def countInversions : List Nat → Nat
  | [] => 0
  | x :: xs => xs.countP (fun y => decide (y < x)) + countInversions xs

/-- `isPuzzleSolvable(puzzle)` from ArrayUtils.js: parity rule on the
inversion count of the flattened board with the empty tile removed.
For an even-sized board without an empty tile the JS code dereferences
`null` and crashes; that branch is modelled as `false` and is unreachable
for well-formed boards. -/
def isPuzzleSolvable (p : Board) : Bool :=
  let size := p.length
  let flatPuzzle := flatten2DArray p
  let tilesOnly := flatPuzzle.filter (fun tile => tile != EMPTY_TILE)
  let inversions := countInversions tilesOnly
  if size % 2 = 1 then
    decide (inversions % 2 = 0)
  else
    match findEmptyPosition p with
    | none => false
    | some emptyPos =>
      let emptyRowFromBottom : Int := (size : Int) - emptyPos.row
      if emptyRowFromBottom % 2 = 1 then
        decide (inversions % 2 = 0)
      else
        decide (inversions % 2 = 1)

/-- `arrays2DEqual(arr1, arr2)` from ArrayUtils.js. -/
def arrays2DEqual (a b : Board) : Bool :=
  a == b

/-- State threaded through `generateSolvablePuzzle`'s shuffle loop:
the board, the current empty position, and the previously vacated
position (`lastMove`). -/
structure GenState where
  puzzle : Board
  emptyPos : Pos
  lastMove : Option Pos
deriving Repr

/-- One iteration of the `generateSolvablePuzzle` loop (ArrayUtils.js):
compute adjacent positions, filter out the immediate reversal, pick the
random candidate, swap and advance.  `choices i % length` models
`Math.floor(Math.random() * validMoves.length)`; if the candidate list is
empty the JS code would crash on `undefined` (unreachable for size ≥ 2) —
modelled as a self-swap. -/
def genStep (size : Nat) (choices : Nat → Nat) (i : Nat) (s : GenState) : GenState :=
  let adjacent := getAdjacentPositions s.emptyPos.row s.emptyPos.col size
  let validMoves := adjacent.filter (fun pos =>
    match s.lastMove with
    | none => true
    | some lm => !(pos.row == lm.row && pos.col == lm.col))
  let randomMove := validMoves.getD (choices i % validMoves.length) s.emptyPos
  { puzzle := swapPositions s.puzzle s.emptyPos randomMove
    emptyPos := randomMove
    lastMove := some s.emptyPos }

/-- The generator state after `n` shuffle iterations. -/
def genRun (size : Nat) (choices : Nat → Nat) : Nat → GenState
  | 0 =>
    { puzzle := createSolvedPuzzle size
      emptyPos := (findEmptyPosition (createSolvedPuzzle size)).getD ⟨0, 0⟩
      lastMove := none }
  | n + 1 => genStep size choices n (genRun size choices n)

/-- `generateSolvablePuzzle(size, shuffleMoves)` from ArrayUtils.js, with
the randomness oracle made explicit. -/
def generateSolvablePuzzle (size shuffleMoves : Nat) (choices : Nat → Nat) : Board :=
  (genRun size choices shuffleMoves).puzzle

/-- `isValidBoardPosition(row, col, size)` from Validator.js. -/
def isValidBoardPosition (row col : Int) (size : Nat) : Bool :=
  decide (0 ≤ row) && decide (row < (size : Int)) &&
    decide (0 ≤ col) && decide (col < (size : Int))

/-- Outcome record of `validateTileMove` (Validator.js).  The JS result
object's `valid` flag and `reason` string; the debug-only `details`
payload is not modelled. -/
structure ValidationResult where
  valid : Bool
  reason : String
deriving DecidableEq, Repr

/-- `validateTileMove(puzzle, row, col)` from Validator.js:
bounds check, then empty-tile check, then empty-position lookup,
then adjacency check. -/
def validateTileMove (puzzle : Board) (row col : Int) : ValidationResult :=
  if !(isValidBoardPosition row col puzzle.length) then
    ⟨false, "Position out of bounds"⟩
  else
    let tileValue := getValueAt puzzle row col
    if tileValue == some EMPTY_TILE then
      ⟨false, "Cannot move empty tile"⟩
    else
      match findEmptyPosition puzzle with
      | none => ⟨false, "Empty tile not found"⟩
      | some emptyPos =>
        if !(areAdjacent ⟨row, col⟩ emptyPos) then
          ⟨false, "Tile not adjacent to empty space"⟩
        else
          ⟨true, "Valid move"⟩

/-- An entry of `getValidMoves`' result (Validator.js): position, tile
value (`getValueAt`, hence `Option`) and the direction name. -/
structure MoveInfo where
  row : Int
  col : Int
  tileValue : Option Nat
  direction : String
deriving DecidableEq, Repr

/-- `getValidMoves(puzzle)` from Validator.js: the in-bounds neighbors of
the empty cell in the fixed DIRECTIONS order, annotated with direction
names. -/
def getValidMoves (puzzle : Board) : List MoveInfo :=
  match findEmptyPosition puzzle with
  | none => []
  | some emptyPos =>
    DIRECTIONS.filterMap (fun direction =>
      let tileRow := emptyPos.row + direction.y
      let tileCol := emptyPos.col + direction.x
      if isValidBoardPosition tileRow tileCol puzzle.length then
        some ⟨tileRow, tileCol, getValueAt puzzle tileRow tileCol, direction.dirName⟩
      else
        none)

/-- A `moveData` record pushed onto `this.moveHistory`
(`Puzzle._executeMove` in PuzzleLogic.js). -/
structure MoveData where
  moveNumber : Int
  tileValue : Option Nat
  src : Pos
  dst : Pos
  previousState : Board
  currentState : Board
  movesRemaining : Int
  timestamp : Nat
deriving DecidableEq, Repr

/-- Events emitted by the `Puzzle` session (PuzzleLogic.js `this.emit`).
Each constructor carries the payload parts the claims refer to. -/
inductive Event where
  | invalidMove (reason : String) (position : Pos)
  | tileMoved (data : MoveData)
  | puzzleSolved
  | gameOver (reason : String)
  | moveUndone
  | puzzleStateSet
  | puzzleReset
deriving DecidableEq, Repr

/-- The `Puzzle` session object's fields (PuzzleLogic.js constructor).
JS numbers `moveCount`/`maxMoves` are `Int`; the nullable timestamps are
`Option Nat`. -/
structure Puzzle where
  size : Nat
  initialState : Board
  currentState : Board
  solvedState : Board
  moveHistory : List MoveData
  moveCount : Int
  maxMoves : Int
  startTime : Option Nat
  endTime : Option Nat
  isComplete : Bool
deriving DecidableEq, Repr

/-- `new Puzzle(size)` followed by `_initializePuzzle()` (PuzzleLogic.js). -/
def puzzleNew (size : Nat) : Puzzle :=
  let solved := createSolvedPuzzle size
  { size := size
    initialState := clone2DArray solved
    currentState := clone2DArray solved
    solvedState := solved
    moveHistory := []
    moveCount := 0
    maxMoves := 100
    startTime := none
    endTime := none
    isComplete := false }

/-- `Puzzle.setPuzzleState(puzzleState, maxMoves)` (PuzzleLogic.js).
The two `throw new Error(...)` paths are modelled as `Except.error` with
the thrown message; on success the session fields are reset exactly as in
the source and the `PUZZLE_STATE_SET` event is emitted. -/
def setPuzzleState (p : Puzzle) (puzzleState : Board) (maxMoves : Int) :
    Except String (Puzzle × List Event) :=
  if puzzleState.length ≠ p.size then
    .error "Invalid puzzle state"
  else if !(isPuzzleSolvable puzzleState) then
    .error "Puzzle state is not solvable"
  else
    .ok ({ p with
            currentState := clone2DArray puzzleState
            initialState := clone2DArray puzzleState
            maxMoves := maxMoves
            moveHistory := []
            moveCount := 0
            startTime := none
            endTime := none
            isComplete := false },
         [.puzzleStateSet])

/-- `Puzzle._executeMove(tilePos, emptyPos)` (PuzzleLogic.js): swap, bump
the move count, build the `moveData` record, append it to history. -/
def executeMove (p : Puzzle) (tilePos emptyPos : Pos) (now : Nat) : Puzzle × MoveData :=
  let tileValue := getValueAt p.currentState tilePos.row tilePos.col
  let previousState := clone2DArray p.currentState
  let newState := swapPositions p.currentState tilePos emptyPos
  let moveCount := p.moveCount + 1
  let moveData : MoveData :=
    { moveNumber := moveCount
      tileValue := tileValue
      src := tilePos
      dst := emptyPos
      previousState := previousState
      currentState := clone2DArray newState
      movesRemaining := p.maxMoves - moveCount
      timestamp := now }
  ({ p with
      currentState := newState
      moveCount := moveCount
      moveHistory := p.moveHistory ++ [moveData] },
   moveData)

/-- `Puzzle._handlePuzzleComplete()` (PuzzleLogic.js): sets the completion
flag and stamps the end time. -/
def handlePuzzleComplete (p : Puzzle) (now : Nat) : Puzzle :=
  { p with isComplete := true, endTime := some now }

/-- `Puzzle._handleGameOver()` (PuzzleLogic.js): stamps the end time only —
it does NOT set `isComplete`. -/
def handleGameOver (p : Puzzle) (now : Nat) : Puzzle :=
  { p with endTime := some now }

/-- `Puzzle.moveTile(row, col)` (PuzzleLogic.js).  Returns the updated
session, the JS boolean result, and the emitted events in order.  Note the
source sets `startTime` BEFORE validating the position.  If the board has
no empty tile the JS code crashes dereferencing `null` (unreachable for
well-formed boards); modelled as a silent failure. -/
def moveTile (p : Puzzle) (row col : Int) (now : Nat) : Puzzle × Bool × List Event :=
  if p.isComplete then
    (p, false, [])
  else
    let p := if p.startTime = none then { p with startTime := some now } else p
    if row < 0 ∨ (p.size : Int) ≤ row ∨ col < 0 ∨ (p.size : Int) ≤ col then
      (p, false, [.invalidMove "Position out of bounds" ⟨row, col⟩])
    else
      match findEmptyPosition p.currentState with
      | none => (p, false, [])
      | some emptyPos =>
        let tilePos : Pos := ⟨row, col⟩
        if !(areAdjacent tilePos emptyPos) then
          (p, false, [.invalidMove "Tile not adjacent to empty space" tilePos])
        else
          let moved := executeMove p tilePos emptyPos now
          let p := moved.1
          let moveData := moved.2
          if isPuzzleSolved p.currentState then
            (handlePuzzleComplete p now, true, [.tileMoved moveData, .puzzleSolved])
          else if p.maxMoves ≤ p.moveCount then
            (handleGameOver p now, true, [.tileMoved moveData, .gameOver "Out of moves"])
          else
            (p, true, [.tileMoved moveData])

/-- `Puzzle.undoLastMove()` (PuzzleLogic.js): pops the last history entry,
restores its `previousState` snapshot, decrements the move count. -/
def undoLastMove (p : Puzzle) : Puzzle × Bool × List Event :=
  if p.moveHistory.isEmpty ∨ p.isComplete then
    (p, false, [])
  else
    match p.moveHistory.getLast? with
    | none => (p, false, [])
    | some lastMove =>
      ({ p with
          currentState := lastMove.previousState
          moveCount := p.moveCount - 1
          moveHistory := p.moveHistory.dropLast },
       true, [.moveUndone])

/-- `Puzzle.getMovesRemaining()` (PuzzleLogic.js):
`Math.max(0, this.maxMoves - this.moveCount)`. -/
def getMovesRemaining (p : Puzzle) : Int :=
  max 0 (p.maxMoves - p.moveCount)

/-- `Puzzle.isSolved()` (PuzzleLogic.js). -/
def puzzleIsSolved (p : Puzzle) : Bool :=
  isPuzzleSolved p.currentState

/-- `createPuzzleFromState(puzzleState, maxMoves)` (PuzzleLogic.js):
`new Puzzle(size)` then `setPuzzleState`; the propagated `throw` is the
`Except.error`. -/
def createPuzzleFromState (puzzleState : Board) (maxMoves : Int) : Except String Puzzle :=
  (setPuzzleState (puzzleNew puzzleState.length) puzzleState maxMoves).map (fun r => r.1)

/-- Test fixture: the session `createPuzzleFromState` builds for a solvable
board (falls back to a fresh session on the throwing path, which the
concrete scenarios below never take). -/
def exSession (b : Board) (maxMoves : Int) : Puzzle :=
  match createPuzzleFromState b maxMoves with
  | .ok p => p
  | .error _ => puzzleNew b.length

/-!
## Reference-instrumented model for the copy-on-read claims

JS boards are heap objects passed by reference.  To express aliasing, the
query/serialization operations are re-run over an explicit heap: a board
field of the session is a reference (`Nat`), `clone2DArray` allocates a
fresh cell holding a value-copy, and `exportState` copies the *references*
(as the JS object literal `{ currentState: this.currentState, ... }` does).
-/

/-- A heap of boards: contents and the next fresh reference. -/
structure Heap where
  mem : Nat → Board
  next : Nat

/-- Allocate a fresh cell holding `b`; returns the new heap and the
fresh reference. -/
def Heap.alloc (h : Heap) (b : Board) : Heap × Nat :=
  ({ mem := fun r => if r = h.next then b else h.mem r, next := h.next + 1 }, h.next)

/-- Mutate the board stored at `r` (what external JS code can do to any
board object it holds a reference to). -/
def Heap.write (h : Heap) (r : Nat) (b : Board) : Heap :=
  { mem := fun x => if x = r then b else h.mem x, next := h.next }

/-- Dereference. -/
def Heap.read (h : Heap) (r : Nat) : Board :=
  h.mem r

/-- `clone2DArray` under the heap model: a value-copy in a fresh cell. -/
def clone2DArrayH (h : Heap) (r : Nat) : Heap × Nat :=
  h.alloc (clone2DArray (h.read r))

/-- The board-reference fields of a `Puzzle` session (PuzzleLogic.js):
current/initial/solved boards and the `previousState` snapshots stored in
`moveHistory`. -/
structure PuzzleRefs where
  size : Nat
  currentState : Nat
  initialState : Nat
  solvedState : Nat
  historyBoards : List Nat

/-- All of a session's references are live heap cells. -/
def PuzzleRefs.wf (h : Heap) (p : PuzzleRefs) : Prop :=
  p.currentState < h.next ∧ p.initialState < h.next ∧ p.solvedState < h.next ∧
    ∀ r ∈ p.historyBoards, r < h.next

/-- `Puzzle.getCurrentState()` (PuzzleLogic.js):
`return clone2DArray(this.currentState)`. -/
def getCurrentStateH (h : Heap) (p : PuzzleRefs) : Heap × Nat :=
  clone2DArrayH h p.currentState

/-- `Puzzle.getSolvedState()` (PuzzleLogic.js):
`return clone2DArray(this.solvedState)`. -/
def getSolvedStateH (h : Heap) (p : PuzzleRefs) : Heap × Nat :=
  clone2DArrayH h p.solvedState

/-- The board-valued parts of `Puzzle.exportState()` (PuzzleLogic.js).
The source returns `{ currentState: this.currentState, initialState:
this.initialState, moveHistory: this.moveHistory, ... }` — the internal
references themselves, with no clone. -/
structure ExportedState where
  size : Nat
  currentState : Nat
  initialState : Nat
  historyBoards : List Nat

/-- `Puzzle.exportState()` under the heap model. -/
def exportStateH (p : PuzzleRefs) : ExportedState :=
  { size := p.size
    currentState := p.currentState
    initialState := p.initialState
    historyBoards := p.historyBoards }

/-!
## Definitions following the specification's words

`specInversionCount` and `specSolvable` formalize §4.2 of the spec
verbatim: inversions are the pairs `i < j` with `value[i] > value[j]` over
the flattened board with the empty value removed, and the parity rule
distinguishes odd and even board sizes.
-/

/-- The spec's inversion count: the number of index pairs `i < j` with
`value[i] > value[j]`. -/
def specInversionCount (l : List Nat) : Nat :=
  ((List.range l.length).map (fun i =>
    ((List.range l.length).map (fun j =>
      if i < j ∧ l.getD j 0 < l.getD i 0 then 1 else 0)).sum)).sum

/-- The spec's solvability predicate, for a board whose empty cell sits in
0-based row `emptyRow`: odd size — inversions even; even size — with
`emptyRowFromBottom = S − emptyRow`, either it is odd and inversions are
even, or it is even and inversions are odd. -/
def specSolvable (p : Board) (emptyRow : Int) : Prop :=
  let inversions :=
    specInversionCount ((flatten2DArray p).filter (fun tile => tile != EMPTY_TILE))
  if p.length % 2 = 1 then
    inversions % 2 = 0
  else
    ((p.length : Int) - emptyRow) % 2 = 1 ∧ inversions % 2 = 0 ∨
      ((p.length : Int) - emptyRow) % 2 = 0 ∧ inversions % 2 = 1

/-!
## Lemmas: the spec's pairwise inversion count equals the code's loop
-/

theorem sum_range_lt_count (xs : List Nat) (x : Nat) :
    ((List.range xs.length).map (fun j => if xs.getD j 0 < x then 1 else 0)).sum
      = xs.countP (fun y => decide (y < x)) := by
  induction xs with
  | nil => rfl
  | cons y ys ih =>
    simp only [List.length_cons, List.range_succ_eq_map, List.map_cons, List.sum_cons,
      List.map_map, Function.comp_def, List.getD_cons_zero, List.getD_cons_succ,
      List.countP_cons, decide_eq_true_eq, ih]
    omega

theorem specInversionCount_cons (x : Nat) (xs : List Nat) :
    specInversionCount (x :: xs)
      = xs.countP (fun y => decide (y < x)) + specInversionCount xs := by
  simp only [specInversionCount, List.length_cons, List.range_succ_eq_map, List.map_cons,
    List.sum_cons, List.map_map, Function.comp_def, List.getD_cons_zero, List.getD_cons_succ,
    Nat.succ_lt_succ_iff, Nat.lt_irrefl, Nat.not_lt_zero, false_and, if_false, Nat.succ_pos,
    true_and, List.sum_cons, Nat.zero_add]
  rw [sum_range_lt_count]

theorem specInversionCount_eq (l : List Nat) :
    specInversionCount l = countInversions l := by
  induction l with
  | nil => rfl
  | cons x xs ih => rw [specInversionCount_cons, countInversions, ih]

/-- C1: `isPuzzleSolvable` returns true exactly according to the parity
theorem — for odd size iff the inversion count (pairs `i < j` with
`value[i] > value[j]`, empty removed) is even, for even size via
`emptyRowFromBottom = S − emptyRow`; and the classic 15-14-swapped 4×4
board is reported unsolvable. -/
theorem solvability_matches_parity_spec :
    (∀ (p : Board) (e : Pos), findEmptyPosition p = some e →
      (isPuzzleSolvable p = true ↔ specSolvable p e.row)) ∧
    isPuzzleSolvable [[1, 2, 3, 4], [5, 6, 7, 8], [9, 10, 11, 12], [13, 15, 14, 0]] = false := by
  constructor
  · intro p e he
    simp only [isPuzzleSolvable, specSolvable, specInversionCount_eq, he]
    split_ifs with h1 h2
    · simp only [decide_eq_true_eq]
    · simp only [decide_eq_true_eq]
      constructor
      · intro hA
        exact Or.inl ⟨h2, hA⟩
      · rintro (⟨_, hA⟩ | ⟨hB, _⟩)
        · exact hA
        · omega
    · simp only [decide_eq_true_eq]
      constructor
      · intro hB
        exact Or.inr ⟨by omega, hB⟩
      · rintro (⟨hC, _⟩ | ⟨_, hB⟩)
        · exact absurd hC h2
        · exact hB
  · decide

/-- Witness for `solvability_matches_parity_spec` at a concrete 3×3 board. -/
theorem solvability_matches_parity_spec_witness :
    findEmptyPosition [[1, 2, 3], [4, 5, 6], [7, 0, 8]] = some ⟨2, 1⟩ ∧
      (isPuzzleSolvable [[1, 2, 3], [4, 5, 6], [7, 0, 8]] = true ↔
        specSolvable [[1, 2, 3], [4, 5, 6], [7, 0, 8]] (2 : Int)) :=
  ⟨by decide, solvability_matches_parity_spec.1 _ ⟨2, 1⟩ (by decide)⟩

/-!
## Lemmas: the `moveTile` / `undoLastMove` control paths
-/

theorem clone2DArray_eq (a : Board) : clone2DArray a = a := by
  simp [clone2DArray]

theorem areAdjacent_self (p : Pos) : areAdjacent p p = false := by
  simp [areAdjacent]

/-- Out-of-bounds `moveTile` call on a non-completed session: failure, the
invalid-move event, and no change apart from the lazily started timer. -/
theorem moveTile_eq_oob (s : Puzzle) (row col : Int) (now : Nat)
    (hnc : s.isComplete = false)
    (hoob : row < 0 ∨ (s.size : Int) ≤ row ∨ col < 0 ∨ (s.size : Int) ≤ col) :
    moveTile s row col now =
      ({ s with startTime := if s.startTime = none then some now else s.startTime },
       false, [.invalidMove "Position out of bounds" ⟨row, col⟩]) := by
  by_cases hst : s.startTime = none <;>
    · cases s
      simp_all [moveTile]

/-- Non-adjacent `moveTile` call on a non-completed session: failure, the
not-adjacent event, and no change apart from the lazily started timer. -/
theorem moveTile_eq_notadj (s : Puzzle) (row col : Int) (now : Nat) (e : Pos)
    (hnc : s.isComplete = false)
    (hnoob : ¬(row < 0 ∨ (s.size : Int) ≤ row ∨ col < 0 ∨ (s.size : Int) ≤ col))
    (hfe : findEmptyPosition s.currentState = some e)
    (hnadj : areAdjacent ⟨row, col⟩ e = false) :
    moveTile s row col now =
      ({ s with startTime := if s.startTime = none then some now else s.startTime },
       false, [.invalidMove "Tile not adjacent to empty space" ⟨row, col⟩]) := by
  by_cases hst : s.startTime = none <;>
    · cases s
      simp_all [moveTile]

/-- A validator-approved `moveTile` call on a non-completed session always
returns `true`, regardless of how many moves were already made. -/
theorem moveTile_valid_true (s : Puzzle) (row col : Int) (now : Nat) (e : Pos)
    (hnc : s.isComplete = false)
    (hnoob : ¬(row < 0 ∨ (s.size : Int) ≤ row ∨ col < 0 ∨ (s.size : Int) ≤ col))
    (hfe : findEmptyPosition s.currentState = some e)
    (hadj : areAdjacent ⟨row, col⟩ e = true) :
    (moveTile s row col now).2.1 = true := by
  by_cases hst : s.startTime = none <;>
    · simp only [moveTile, hnc, hst, if_false, if_true, Bool.false_eq_true, reduceIte,
        hnoob, hfe, hadj, Bool.not_true]
      split <;> first
        | rfl
        | (split <;> rfl)

/-- The state after a successful non-winning `moveTile`: still not
complete, board swapped, count bumped, and the move record (with its
pre-move snapshot) appended to history. -/
theorem moveTile_nonwinning_state (s : Puzzle) (row col : Int) (now : Nat) (e : Pos)
    (hnc : s.isComplete = false)
    (hnoob : ¬(row < 0 ∨ (s.size : Int) ≤ row ∨ col < 0 ∨ (s.size : Int) ≤ col))
    (hfe : findEmptyPosition s.currentState = some e)
    (hadj : areAdjacent ⟨row, col⟩ e = true)
    (hnw : isPuzzleSolved (swapPositions s.currentState ⟨row, col⟩ e) = false) :
    (moveTile s row col now).1.isComplete = false ∧
    (moveTile s row col now).1.currentState = swapPositions s.currentState ⟨row, col⟩ e ∧
    (moveTile s row col now).1.moveCount = s.moveCount + 1 ∧
    (moveTile s row col now).1.moveHistory =
      s.moveHistory ++
        [{ moveNumber := s.moveCount + 1
           tileValue := getValueAt s.currentState row col
           src := ⟨row, col⟩
           dst := e
           previousState := s.currentState
           currentState := swapPositions s.currentState ⟨row, col⟩ e
           movesRemaining := s.maxMoves - (s.moveCount + 1)
           timestamp := now }] := by
  by_cases hst : s.startTime = none <;>
    · simp only [moveTile, executeMove, handlePuzzleComplete, handleGameOver, hnc, hst,
        if_false, if_true, Bool.false_eq_true, reduceIte, hnoob, hfe, hadj, Bool.not_true,
        clone2DArray_eq]
      split
      · next hs => exact absurd hs (by simp [hnw])
      · split <;> simp [hnc]

/-- `undoLastMove` succeeds on any non-completed session with history. -/
theorem undoLastMove_success (s : Puzzle)
    (hnc : s.isComplete = false) (hne : s.moveHistory ≠ []) :
    (undoLastMove s).2.1 = true := by
  rcases hlast : s.moveHistory.getLast? with _ | last
  · exact absurd (List.getLast?_eq_none_iff.mp hlast) hne
  · simp [undoLastMove, hnc, List.isEmpty_iff, hne, hlast]

/-- The state `undoLastMove` restores when the last history entry is known. -/
theorem undoLastMove_state (s : Puzzle) (last : MoveData)
    (hnc : s.isComplete = false) (hne : s.moveHistory ≠ [])
    (hlast : s.moveHistory.getLast? = some last) :
    (undoLastMove s).1.currentState = last.previousState ∧
    (undoLastMove s).1.moveCount = s.moveCount - 1 ∧
    (undoLastMove s).1.moveHistory = s.moveHistory.dropLast := by
  simp [undoLastMove, hnc, List.isEmpty_iff, hne, hlast]

/-!
## Lemmas: heap reads around allocation and mutation
-/

theorem heap_fresh_read (h : Heap) (b : Board) :
    Heap.read (h.alloc b).1 (h.alloc b).2 = b := by
  simp [Heap.alloc, Heap.read]

theorem heap_alloc_read_old (h : Heap) (b : Board) (r : Nat) (hr : r < h.next) :
    Heap.read (h.alloc b).1 r = Heap.read h r := by
  simp only [Heap.alloc, Heap.read]
  rw [if_neg (by omega)]

theorem heap_write_read_ne (h : Heap) (r : Nat) (b : Board) (r' : Nat) (hne : r' ≠ r) :
    Heap.read (h.write r b) r' = Heap.read h r' := by
  simp [Heap.write, Heap.read, hne]

/-- Concrete heap fixture: one live board at reference 0. -/
def heapEx : Heap :=
  (Heap.alloc { mem := fun _ => [], next := 0 } [[1, 2], [3, 0]]).1

/-- Concrete session-reference fixture over `heapEx`. -/
def sessionRefs : PuzzleRefs :=
  { size := 2, currentState := 0, initialState := 0, solvedState := 0, historyBoards := [] }

example : createSolvedPuzzle 3 = [[1, 2, 3], [4, 5, 6], [7, 8, 0]] := by decide
example : isPuzzleSolved [[1, 2, 3], [4, 5, 6], [7, 8, 0]] = true := by decide
example : isPuzzleSolved [[1, 2, 3], [4, 5, 6], [7, 0, 8]] = false := by decide
example : isPuzzleSolvable [[1, 2, 3], [4, 5, 6], [7, 0, 8]] = true := by decide
example : isPuzzleSolvable [[1, 2, 3], [4, 5, 6], [8, 7, 0]] = false := by decide
example :
    isPuzzleSolvable [[1, 2, 3, 4], [5, 6, 7, 8], [9, 10, 11, 12], [13, 15, 14, 0]] = false := by
  decide
example :
    generateSolvablePuzzle 3 2 (fun _ => 0) ≠ createSolvedPuzzle 3 := by decide
example :
    isPuzzleSolvable (generateSolvablePuzzle 3 7 (fun i => i * 3 + 1)) = true := by decide
example :
    isPuzzleSolvable (generateSolvablePuzzle 4 9 (fun i => i + 2)) = true := by decide
example :
    getValidMoves [[1, 2, 3], [4, 5, 6], [7, 0, 8]] =
      [⟨1, 1, some 5, "up"⟩, ⟨2, 0, some 7, "left"⟩, ⟨2, 2, some 8, "right"⟩] := by decide
example :
    validateTileMove [[1, 2, 3], [4, 5, 6], [7, 0, 8]] 2 1 =
      ⟨false, "Cannot move empty tile"⟩ := by decide

/-!
## Lemmas: inversion counting under moving one element across a block

`countInversions_move` is the parity heart of the generator proof: moving
an element `b` across a block `m` trades the pairs `(z, b)` with `z < b`
for those with `z > b`, so the inversion count changes parity by
`m.length` whenever `b` differs from everything in `m`.
-/

/-- Inversions between two blocks: for each left element, the smaller
right elements. -/
def crossCount (xs ys : List Nat) : Nat :=
  (xs.map (fun x => ys.countP (fun y => decide (y < x)))).sum

theorem crossCount_nil (ys : List Nat) : crossCount [] ys = 0 := rfl

theorem crossCount_cons (x : Nat) (xs ys : List Nat) :
    crossCount (x :: xs) ys = ys.countP (fun y => decide (y < x)) + crossCount xs ys := by
  simp [crossCount]

theorem countInversions_append (xs ys : List Nat) :
    countInversions (xs ++ ys) = countInversions xs + countInversions ys + crossCount xs ys := by
  induction xs with
  | nil => simp [countInversions, crossCount]
  | cons x xs ih =>
    simp only [List.cons_append, countInversions, List.append_eq, List.countP_append,
      ih, crossCount_cons]
    omega

theorem crossCount_append_right (xs ys zs : List Nat) :
    crossCount xs (ys ++ zs) = crossCount xs ys + crossCount xs zs := by
  induction xs with
  | nil => rfl
  | cons x xs ih =>
    simp only [crossCount_cons, List.countP_append, ih]
    omega

theorem crossCount_singleton (xs : List Nat) (b : Nat) :
    crossCount xs [b] = xs.countP (fun z => decide (b < z)) := by
  induction xs with
  | nil => rfl
  | cons x xs ih =>
    simp only [crossCount_cons, ih, List.countP_cons, List.countP_nil]
    by_cases h : b < x
    · simp [h]
      omega
    · simp [h]

theorem crossCount_single_left (b : Nat) (ys : List Nat) :
    crossCount [b] ys = ys.countP (fun y => decide (y < b)) := by
  simp [crossCount]

theorem countInversions_singleton (b : Nat) : countInversions [b] = 0 := by
  simp [countInversions]

theorem countInversions_move (A m B : List Nat) (b : Nat) :
    countInversions (A ++ (m ++ b :: B)) + m.countP (fun z => decide (z < b))
      = countInversions (A ++ (b :: (m ++ B))) + m.countP (fun z => decide (b < z)) := by
  have h1 : b :: (m ++ B) = [b] ++ (m ++ B) := rfl
  have h2 : b :: B = [b] ++ B := rfl
  rw [h1, h2]
  simp only [countInversions_append, crossCount_append_right, countInversions_singleton,
    crossCount_single_left, crossCount_singleton, List.countP_append]
  omega

theorem countInversions_move2 (L A m B : List Nat) (b : Nat) :
    countInversions (L ++ (A ++ (m ++ b :: B))) + m.countP (fun z => decide (z < b))
      = countInversions (L ++ (A ++ (b :: (m ++ B)))) + m.countP (fun z => decide (b < z)) := by
  have h := countInversions_move (L ++ A) m B b
  simp only [List.append_assoc] at h
  exact h

theorem countP_lt_add_countP_gt (m : List Nat) (b : Nat) (h : ∀ z ∈ m, z ≠ b) :
    m.countP (fun z => decide (z < b)) + m.countP (fun z => decide (b < z)) = m.length := by
  induction m with
  | nil => rfl
  | cons z m ih =>
    have hz : z ≠ b := h z (by simp)
    have hm : ∀ w ∈ m, w ≠ b := fun w hw => h w (by simp [hw])
    have key := ih hm
    rcases Nat.lt_trichotomy z b with hlt | heq | hgt
    · simp only [List.countP_cons, List.length_cons]
      simp [hlt, Nat.lt_asymm hlt]
      omega
    · exact absurd heq hz
    · simp only [List.countP_cons, List.length_cons]
      simp [hgt, Nat.lt_asymm hgt]
      omega

/-!
## Lemmas: list surgery (set / getD / decompositions), first-occurrence
search, filtering, and permutations
-/

theorem list_set_len {α : Type} (T : List α) (a b : α) (D : List α) :
    (T ++ a :: D).set T.length b = T ++ b :: D := by
  induction T with
  | nil => rfl
  | cons t T ih =>
    simp [ih]

theorem list_getD_len {α : Type} (T : List α) (a : α) (D : List α) (d : α) :
    (T ++ a :: D).getD T.length d = a := by
  induction T with
  | nil => rfl
  | cons t T ih =>
    simpa using ih

theorem list_decomp {α : Type} (l : List α) (n : Nat) (d : α) (h : n < l.length) :
    l = l.take n ++ l.getD n d :: l.drop (n + 1) := by
  induction l generalizing n with
  | nil => simp at h
  | cons x xs ih =>
    cases n with
    | zero => simp
    | succ n => simpa using ih n (by simpa using h)

theorem getD_drop_zero {α : Type} (l : List α) (n : Nat) (d : α) :
    (l.drop n).getD 0 d = l.getD n d := by
  induction l generalizing n with
  | nil => simp
  | cons x xs ih =>
    cases n with
    | zero => rfl
    | succ n => simp [ih n]

theorem getD_zero_mem {α : Type} (l : List α) (d : α) (h : l ≠ []) : l.getD 0 d ∈ l := by
  cases l with
  | nil => exact absurd rfl h
  | cons x xs => simp

theorem filter_ne_zero_eq_self (l : List Nat) (h : (0 : Nat) ∉ l) :
    l.filter (fun t => t != 0) = l :=
  List.filter_eq_self.mpr (fun _ hx => bne_iff_ne.mpr (fun he => h (he ▸ hx)))

theorem perm_swap_middle {α : Type} (a b : α) (m R : List α) :
    (a :: (m ++ b :: R)).Perm (b :: (m ++ a :: R)) :=
  ((List.perm_middle).cons a).trans
    ((List.Perm.swap b a (m ++ R)).trans ((List.perm_middle.symm).cons b))

theorem findInRow_none (row : List Nat) (v : Nat) (h : ∀ x ∈ row, x ≠ v) :
    findInRow row v = none := by
  induction row with
  | nil => rfl
  | cons x xs ih =>
    rw [findInRow, if_neg (h x (by simp)), ih (fun y hy => h y (by simp [hy]))]
    rfl

theorem findInRow_append (A : List Nat) (v : Nat) (B : List Nat) (h : ∀ x ∈ A, x ≠ v) :
    findInRow (A ++ v :: B) v = some A.length := by
  induction A with
  | nil => simp [findInRow]
  | cons x A ih =>
    rw [List.cons_append, findInRow, if_neg (h x (by simp)), ih (fun y hy => h y (by simp [hy]))]
    simp

theorem findPosition_of_parts (T D : Board) (A B : List Nat) (v : Nat)
    (hT : ∀ x ∈ flatten2DArray T, x ≠ v) (hA : ∀ x ∈ A, x ≠ v) :
    findPosition (T ++ (A ++ v :: B) :: D) v =
      some ⟨(T.length : Int), (A.length : Int)⟩ := by
  induction T with
  | nil =>
    rw [List.nil_append, findPosition, findInRow_append A v B hA]
    rfl
  | cons row T ih =>
    have hrow : ∀ x ∈ row, x ≠ v := fun x hx => hT x (by simp [flatten2DArray, hx])
    have hT' : ∀ x ∈ flatten2DArray T, x ≠ v := fun x hx =>
      hT x (by simp only [flatten2DArray, List.flatten_cons, List.mem_append]; exact Or.inr hx)
    rw [List.cons_append, findPosition, findInRow_none row v hrow, ih hT']
    simp only [Option.map, List.length_cons, Option.some.injEq, Pos.mk.injEq]
    constructor
    · push_cast
      ring
    · trivial

/-!
## Lemmas: `isPuzzleSolvable` is invariant under one legal slide

A legal slide swaps the empty cell with a horizontally or vertically
adjacent tile.  Horizontally, the tiles-only list is unchanged and so is
the empty row.  Vertically, the moved tile crosses a block of `S − 1`
cells, flipping the inversion parity exactly when `S` is even — and then
`emptyRowFromBottom` flips parity too, so the analyzer's verdict is
preserved in all cases.
-/

theorem isPuzzleSolvable_char (p : Board) (e : Pos) (hfe : findEmptyPosition p = some e) :
    isPuzzleSolvable p =
      (if p.length % 2 = 1 then
        decide ((countInversions ((flatten2DArray p).filter (fun tile => tile != EMPTY_TILE))) % 2 = 0)
      else if (((p.length : Nat) : Int) - e.row) % 2 = 1 then
        decide ((countInversions ((flatten2DArray p).filter (fun tile => tile != EMPTY_TILE))) % 2 = 0)
      else
        decide ((countInversions ((flatten2DArray p).filter (fun tile => tile != EMPTY_TILE))) % 2 = 1)) := by
  simp only [isPuzzleSolvable, hfe]

theorem filter_swap_zero (l₁ l₂ : List Nat) (y : Nat) :
    (l₁ ++ y :: 0 :: l₂).filter (fun t => t != 0)
      = (l₁ ++ 0 :: y :: l₂).filter (fun t => t != 0) := by
  simp only [List.filter_append, List.filter_cons, bne_self_eq_false, Bool.false_eq_true,
    if_false]

theorem solvable_swap_row (T D : Board) (A B : List Nat) (y : Nat)
    (hnd : (flatten2DArray (T ++ (A ++ 0 :: y :: B) :: D)).Nodup) :
    isPuzzleSolvable (T ++ (A ++ y :: 0 :: B) :: D)
      = isPuzzleSolvable (T ++ (A ++ 0 :: y :: B) :: D) := by
  have hF2 : flatten2DArray (T ++ (A ++ 0 :: y :: B) :: D)
      = flatten2DArray T ++ (A ++ (0 :: (y :: (B ++ flatten2DArray D)))) := by
    simp [flatten2DArray, List.flatten_append, List.append_assoc]
  have hF1 : flatten2DArray (T ++ (A ++ y :: 0 :: B) :: D)
      = flatten2DArray T ++ (A ++ (y :: (0 :: (B ++ flatten2DArray D)))) := by
    simp [flatten2DArray, List.flatten_append, List.append_assoc]
  rw [hF2] at hnd
  have hnd0 : (0 :: ((flatten2DArray T ++ A) ++ (y :: (B ++ flatten2DArray D)))).Nodup := by
    rw [← List.nodup_middle]
    simpa [List.append_assoc] using hnd
  obtain ⟨h0mem, _⟩ := List.nodup_cons.mp hnd0
  simp only [List.mem_append, List.mem_cons, not_or] at h0mem
  obtain ⟨⟨h0FT, h0A⟩, h0y, _, _⟩ := h0mem
  have hy0 : y ≠ 0 := fun h => h0y (h.symm)
  have hfe2 : findEmptyPosition (T ++ (A ++ 0 :: y :: B) :: D) =
      some ⟨(T.length : Int), (A.length : Int)⟩ := by
    simp only [findEmptyPosition, EMPTY_TILE]
    exact findPosition_of_parts T D A (y :: B) 0
      (fun x hx h => h0FT (h ▸ hx)) (fun x hx h => h0A (h ▸ hx))
  have hfe1 : findEmptyPosition (T ++ (A ++ y :: 0 :: B) :: D) =
      some ⟨(T.length : Int), ((A.length + 1 : Nat) : Int)⟩ := by
    simp only [findEmptyPosition, EMPTY_TILE]
    have heq : T ++ (A ++ y :: 0 :: B) :: D = T ++ ((A ++ [y]) ++ 0 :: B) :: D := by
      simp
    rw [heq]
    have h := findPosition_of_parts T D (A ++ [y]) B 0
      (fun x hx h => h0FT (h ▸ hx))
      (fun x hx h => by
        rcases List.mem_append.mp hx with hx | hx
        · exact h0A (h ▸ hx)
        · have hxy : x = y := List.mem_singleton.mp hx
          exact hy0 (hxy ▸ h))
    simpa using h
  have hfil : (flatten2DArray (T ++ (A ++ y :: 0 :: B) :: D)).filter (fun tile => tile != EMPTY_TILE)
      = (flatten2DArray (T ++ (A ++ 0 :: y :: B) :: D)).filter (fun tile => tile != EMPTY_TILE) := by
    rw [hF1, hF2]
    simp only [EMPTY_TILE]
    have h1 : flatten2DArray T ++ (A ++ (y :: (0 :: (B ++ flatten2DArray D))))
        = (flatten2DArray T ++ A) ++ y :: 0 :: (B ++ flatten2DArray D) := by
      simp [List.append_assoc]
    have h2 : flatten2DArray T ++ (A ++ (0 :: (y :: (B ++ flatten2DArray D))))
        = (flatten2DArray T ++ A) ++ 0 :: y :: (B ++ flatten2DArray D) := by
      simp [List.append_assoc]
    rw [h1, h2, filter_swap_zero]
  have hlen1 : (T ++ (A ++ y :: 0 :: B) :: D).length = T.length + D.length + 1 := by
    simp [List.length_append]
    omega
  have hlen2 : (T ++ (A ++ 0 :: y :: B) :: D).length = T.length + D.length + 1 := by
    simp [List.length_append]
    omega
  rw [isPuzzleSolvable_char _ _ hfe1, isPuzzleSolvable_char _ _ hfe2, hfil, hlen1, hlen2]

theorem solvable_swap_col (T D : Board) (A B C E : List Nat) (y : Nat)
    (hnd : (flatten2DArray (T ++ (A ++ 0 :: B) :: (C ++ y :: E) :: D)).Nodup)
    (hpar : (B.length + C.length + 1) % 2 = (T.length + D.length + 2) % 2) :
    isPuzzleSolvable (T ++ (A ++ y :: B) :: (C ++ 0 :: E) :: D)
      = isPuzzleSolvable (T ++ (A ++ 0 :: B) :: (C ++ y :: E) :: D) := by
  have hF2 : flatten2DArray (T ++ (A ++ 0 :: B) :: (C ++ y :: E) :: D)
      = flatten2DArray T ++ (A ++ (0 :: (B ++ (C ++ (y :: (E ++ flatten2DArray D)))))) := by
    simp [flatten2DArray, List.flatten_append, List.append_assoc]
  have hF1 : flatten2DArray (T ++ (A ++ y :: B) :: (C ++ 0 :: E) :: D)
      = flatten2DArray T ++ (A ++ (y :: (B ++ (C ++ (0 :: (E ++ flatten2DArray D)))))) := by
    simp [flatten2DArray, List.flatten_append, List.append_assoc]
  rw [hF2] at hnd
  have hnd0 : (0 :: ((flatten2DArray T ++ A) ++
      (B ++ (C ++ (y :: (E ++ flatten2DArray D)))))).Nodup := by
    rw [← List.nodup_middle]
    simpa [List.append_assoc] using hnd
  obtain ⟨h0mem, hnd1⟩ := List.nodup_cons.mp hnd0
  simp only [List.mem_append, List.mem_cons, not_or] at h0mem
  obtain ⟨⟨h0FT, h0A⟩, h0B, h0C, h0y, h0E, h0FD⟩ := h0mem
  have hy0 : y ≠ 0 := fun h => h0y (h.symm)
  have hnd2 : (y :: ((((flatten2DArray T ++ A) ++ B) ++ C) ++
      (E ++ flatten2DArray D))).Nodup := by
    rw [← List.nodup_middle]
    simpa [List.append_assoc] using hnd1
  have hymem := (List.nodup_cons.mp hnd2).1
  simp only [List.mem_append, not_or] at hymem
  obtain ⟨⟨⟨_, hyB⟩, hyC⟩, _, _⟩ := hymem
  have hfe2 : findEmptyPosition (T ++ (A ++ 0 :: B) :: (C ++ y :: E) :: D) =
      some ⟨(T.length : Int), (A.length : Int)⟩ := by
    simp only [findEmptyPosition, EMPTY_TILE]
    exact findPosition_of_parts T _ A B 0
      (fun x hx h => h0FT (h ▸ hx)) (fun x hx h => h0A (h ▸ hx))
  have hfe1 : findEmptyPosition (T ++ (A ++ y :: B) :: (C ++ 0 :: E) :: D) =
      some ⟨((T.length + 1 : Nat) : Int), (C.length : Int)⟩ := by
    simp only [findEmptyPosition, EMPTY_TILE]
    have heq : T ++ (A ++ y :: B) :: (C ++ 0 :: E) :: D
        = (T ++ [A ++ y :: B]) ++ (C ++ 0 :: E) :: D := by
      simp
    rw [heq]
    have h := findPosition_of_parts (T ++ [A ++ y :: B]) D C E 0
      (fun x hx h => by
        simp only [flatten2DArray, List.flatten_append, List.flatten_cons, List.flatten_nil,
          List.append_nil, List.mem_append, List.mem_cons] at hx
        rcases hx with hx | hx | hx | hx
        · exact h0FT (h ▸ hx)
        · exact h0A (h ▸ hx)
        · exact hy0 (hx ▸ h)
        · exact h0B (h ▸ hx))
      (fun x hx h => h0C (h ▸ hx))
    simpa using h
  have hfil2 : (flatten2DArray (T ++ (A ++ 0 :: B) :: (C ++ y :: E) :: D)).filter
        (fun tile => tile != EMPTY_TILE)
      = flatten2DArray T ++ (A ++ (B ++ (C ++ (y :: (E ++ flatten2DArray D))))) := by
    rw [hF2]
    simp only [EMPTY_TILE, List.filter_append, List.filter_cons, bne_self_eq_false,
      Bool.false_eq_true, if_false, bne_iff_ne.mpr hy0, if_true]
    rw [filter_ne_zero_eq_self _ h0FT, filter_ne_zero_eq_self _ h0A,
      filter_ne_zero_eq_self _ h0B, filter_ne_zero_eq_self _ h0C,
      filter_ne_zero_eq_self _ h0E, filter_ne_zero_eq_self _ h0FD]
  have hfil1 : (flatten2DArray (T ++ (A ++ y :: B) :: (C ++ 0 :: E) :: D)).filter
        (fun tile => tile != EMPTY_TILE)
      = flatten2DArray T ++ (A ++ (y :: (B ++ (C ++ (E ++ flatten2DArray D))))) := by
    rw [hF1]
    simp only [EMPTY_TILE, List.filter_append, List.filter_cons, bne_self_eq_false,
      Bool.false_eq_true, if_false, bne_iff_ne.mpr hy0, if_true]
    rw [filter_ne_zero_eq_self _ h0FT, filter_ne_zero_eq_self _ h0A,
      filter_ne_zero_eq_self _ h0B, filter_ne_zero_eq_self _ h0C,
      filter_ne_zero_eq_self _ h0E, filter_ne_zero_eq_self _ h0FD]
  have hinv := countInversions_move2 (flatten2DArray T) A (B ++ C) (E ++ flatten2DArray D) y
  simp only [List.append_assoc, List.cons_append] at hinv
  have hmlen := countP_lt_add_countP_gt (B ++ C) y (fun z hz => by
    rcases List.mem_append.mp hz with hz | hz
    · exact fun h => hyB (h ▸ hz)
    · exact fun h => hyC (h ▸ hz))
  rw [List.length_append] at hmlen
  have hlen1 : (T ++ (A ++ y :: B) :: (C ++ 0 :: E) :: D).length = T.length + D.length + 2 := by
    simp [List.length_append]
    omega
  have hlen2 : (T ++ (A ++ 0 :: B) :: (C ++ y :: E) :: D).length = T.length + D.length + 2 := by
    simp [List.length_append]
    omega
  rw [isPuzzleSolvable_char _ _ hfe1, isPuzzleSolvable_char _ _ hfe2, hfil1, hfil2,
    hlen1, hlen2]
  dsimp only
  split_ifs with h1 h2 h3 <;>
    · rw [decide_eq_decide]
      constructor <;> (intro hh; omega)

/-!
## Lemmas: `swapPositions` on decomposed boards

The generator always swaps the empty cell (`pos1`) with an adjacent cell
(`pos2`); the four lemmas below compute the result for the four relative
positions, on boards decomposed around the two cells.
-/

theorem getD_mem_of_lt {α : Type} (l : List α) (n : Nat) (d : α) (h : n < l.length) :
    l.getD n d ∈ l := by
  rw [List.getD_eq_getElem l d h]
  exact List.getElem_mem h

theorem swapPositions_row_right (T D : Board) (A B : List Nat) (u v : Nat) :
    swapPositions (T ++ (A ++ u :: v :: B) :: D)
        ⟨(T.length : Int), (A.length : Int)⟩
        ⟨(T.length : Int), ((A.length + 1 : Nat) : Int)⟩
      = T ++ (A ++ v :: u :: B) :: D := by
  have hsplit : A ++ u :: v :: B = (A ++ [u]) ++ v :: B := by simp
  have hsplit2 : A ++ v :: v :: B = (A ++ [v]) ++ v :: B := by simp
  have hlen1 : (A ++ [u]).length = A.length + 1 := by simp
  have hlen2 : (A ++ [v]).length = A.length + 1 := by simp
  have hget2 : (A ++ u :: v :: B).getD (A.length + 1) 0 = v := by
    rw [hsplit, ← hlen1, list_getD_len]
  have hset1 : (A ++ u :: v :: B).set A.length v = A ++ v :: v :: B :=
    list_set_len A u v (v :: B)
  have houter1 : (T ++ (A ++ u :: v :: B) :: D).set T.length (A ++ v :: v :: B)
      = T ++ (A ++ v :: v :: B) :: D := list_set_len T _ _ D
  have hgetrow : (T ++ (A ++ v :: v :: B) :: D).getD T.length [] = A ++ v :: v :: B :=
    list_getD_len T _ D []
  have hset2 : (A ++ v :: v :: B).set (A.length + 1) u = A ++ v :: u :: B := by
    rw [hsplit2, ← hlen2, list_set_len]
    simp
  have houter2 : (T ++ (A ++ v :: v :: B) :: D).set T.length (A ++ v :: u :: B)
      = T ++ (A ++ v :: u :: B) :: D := list_set_len T _ _ D
  simp only [swapPositions, get2DD, set2D, Int.toNat_natCast]
  rw [list_getD_len T (A ++ u :: v :: B) D [], hget2,
    list_getD_len A u (v :: B) 0, hset1, houter1, hgetrow, hset2, houter2]

theorem swapPositions_row_left (T D : Board) (A B : List Nat) (u v : Nat) :
    swapPositions (T ++ (A ++ u :: v :: B) :: D)
        ⟨(T.length : Int), ((A.length + 1 : Nat) : Int)⟩
        ⟨(T.length : Int), (A.length : Int)⟩
      = T ++ (A ++ v :: u :: B) :: D := by
  have hsplit : A ++ u :: v :: B = (A ++ [u]) ++ v :: B := by simp
  have hsplit2 : A ++ u :: u :: B = (A ++ [u]) ++ u :: B := by simp
  have hlen1 : (A ++ [u]).length = A.length + 1 := by simp
  have hget1 : (A ++ u :: v :: B).getD (A.length + 1) 0 = v := by
    rw [hsplit, ← hlen1, list_getD_len]
  have hset1 : (A ++ u :: v :: B).set (A.length + 1) u = A ++ u :: u :: B := by
    rw [hsplit, ← hlen1, list_set_len]
    simp
  have houter1 : (T ++ (A ++ u :: v :: B) :: D).set T.length (A ++ u :: u :: B)
      = T ++ (A ++ u :: u :: B) :: D := list_set_len T _ _ D
  have hgetrow : (T ++ (A ++ u :: u :: B) :: D).getD T.length [] = A ++ u :: u :: B :=
    list_getD_len T _ D []
  have hset2 : (A ++ u :: u :: B).set A.length v = A ++ v :: u :: B :=
    list_set_len A u v (u :: B)
  have houter2 : (T ++ (A ++ u :: u :: B) :: D).set T.length (A ++ v :: u :: B)
      = T ++ (A ++ v :: u :: B) :: D := list_set_len T _ _ D
  simp only [swapPositions, get2DD, set2D, Int.toNat_natCast]
  rw [list_getD_len T (A ++ u :: v :: B) D [], hget1,
    list_getD_len A u (v :: B) 0, hset1, houter1, hgetrow, hset2, houter2]

theorem swapPositions_col_down (T D : Board) (P Q R S : List Nat) (a b : Nat)
    (hPR : P.length = R.length) :
    swapPositions (T ++ (P ++ a :: Q) :: (R ++ b :: S) :: D)
        ⟨(T.length : Int), (P.length : Int)⟩
        ⟨((T.length + 1 : Nat) : Int), (P.length : Int)⟩
      = T ++ (P ++ b :: Q) :: (R ++ a :: S) :: D := by
  have hT1 : (T ++ [P ++ a :: Q]).length = T.length + 1 := by simp
  have hT2 : (T ++ [P ++ b :: Q]).length = T.length + 1 := by simp
  have hassoc1 : T ++ (P ++ a :: Q) :: (R ++ b :: S) :: D
      = (T ++ [P ++ a :: Q]) ++ (R ++ b :: S) :: D := by simp
  have hassoc2 : T ++ (P ++ b :: Q) :: (R ++ b :: S) :: D
      = (T ++ [P ++ b :: Q]) ++ (R ++ b :: S) :: D := by simp
  have hget2row : (T ++ (P ++ a :: Q) :: (R ++ b :: S) :: D).getD (T.length + 1) []
      = R ++ b :: S := by
    rw [hassoc1, ← hT1, list_getD_len]
  have hget2 : (R ++ b :: S).getD P.length 0 = b := by
    rw [hPR, list_getD_len]
  have hset1 : (P ++ a :: Q).set P.length b = P ++ b :: Q := list_set_len P a b Q
  have houter1 : (T ++ (P ++ a :: Q) :: (R ++ b :: S) :: D).set T.length (P ++ b :: Q)
      = T ++ (P ++ b :: Q) :: (R ++ b :: S) :: D := list_set_len T _ _ _
  have hgetrow2 : (T ++ (P ++ b :: Q) :: (R ++ b :: S) :: D).getD (T.length + 1) []
      = R ++ b :: S := by
    rw [hassoc2, ← hT2, list_getD_len]
  have hset2 : (R ++ b :: S).set P.length a = R ++ a :: S := by
    rw [hPR]
    exact list_set_len R b a S
  have houter2 : (T ++ (P ++ b :: Q) :: (R ++ b :: S) :: D).set (T.length + 1) (R ++ a :: S)
      = T ++ (P ++ b :: Q) :: (R ++ a :: S) :: D := by
    rw [hassoc2, ← hT2, list_set_len]
    simp
  simp only [swapPositions, get2DD, set2D, Int.toNat_natCast]
  rw [list_getD_len T (P ++ a :: Q) ((R ++ b :: S) :: D) [],
    list_getD_len P a Q 0, hget2row, hget2, hset1, houter1, hgetrow2, hset2, houter2]

theorem swapPositions_col_up (T D : Board) (P Q R S : List Nat) (a b : Nat)
    (hPR : P.length = R.length) :
    swapPositions (T ++ (P ++ a :: Q) :: (R ++ b :: S) :: D)
        ⟨((T.length + 1 : Nat) : Int), (P.length : Int)⟩
        ⟨(T.length : Int), (P.length : Int)⟩
      = T ++ (P ++ b :: Q) :: (R ++ a :: S) :: D := by
  have hT1 : (T ++ [P ++ a :: Q]).length = T.length + 1 := by simp
  have hassoc1 : T ++ (P ++ a :: Q) :: (R ++ b :: S) :: D
      = (T ++ [P ++ a :: Q]) ++ (R ++ b :: S) :: D := by simp
  have hget1row : (T ++ (P ++ a :: Q) :: (R ++ b :: S) :: D).getD (T.length + 1) []
      = R ++ b :: S := by
    rw [hassoc1, ← hT1, list_getD_len]
  have hget1 : (R ++ b :: S).getD P.length 0 = b := by
    rw [hPR, list_getD_len]
  have hset1 : (R ++ b :: S).set P.length a = R ++ a :: S := by
    rw [hPR]
    exact list_set_len R b a S
  have houter1 : (T ++ (P ++ a :: Q) :: (R ++ b :: S) :: D).set (T.length + 1) (R ++ a :: S)
      = T ++ (P ++ a :: Q) :: (R ++ a :: S) :: D := by
    rw [hassoc1, ← hT1, list_set_len]
    simp
  have hgetrow2 : (T ++ (P ++ a :: Q) :: (R ++ a :: S) :: D).getD T.length []
      = P ++ a :: Q := list_getD_len T _ _ []
  have hset2 : (P ++ a :: Q).set P.length b = P ++ b :: Q := list_set_len P a b Q
  have houter2 : (T ++ (P ++ a :: Q) :: (R ++ a :: S) :: D).set T.length (P ++ b :: Q)
      = T ++ (P ++ b :: Q) :: (R ++ a :: S) :: D := list_set_len T _ _ _
  simp only [swapPositions, get2DD, set2D, Int.toNat_natCast]
  rw [list_getD_len T (P ++ a :: Q) ((R ++ b :: S) :: D) [],
    list_getD_len P a Q 0, hget1row, hget1, hset1, houter1, hgetrow2, hset2, houter2]

theorem set_getD_self {α : Type} (l : List α) (n : Nat) (d : α) :
    l.set n (l.getD n d) = l := by
  induction l generalizing n with
  | nil => rfl
  | cons x xs ih =>
    cases n with
    | zero => rfl
    | succ n => exact congrArg (fun l => x :: l) (ih n)

theorem swapPositions_self (p : Board) (pos : Pos) : swapPositions p pos pos = p := by
  simp only [swapPositions, get2DD, set2D]
  rw [set_getD_self (p.getD pos.row.toNat []) pos.col.toNat 0,
    set_getD_self p pos.row.toNat [],
    set_getD_self (p.getD pos.row.toNat []) pos.col.toNat 0,
    set_getD_self p pos.row.toNat []]

theorem adjacent_cases (r c size : Nat) (t : Pos)
    (ht : t ∈ getAdjacentPositions (r : Int) (c : Int) size) :
    ∃ r' c' : Nat, t = ⟨(r' : Int), (c' : Int)⟩ ∧ r' < size ∧ c' < size ∧
      ((r' + 1 = r ∧ c' = c) ∨ (r' = r + 1 ∧ c' = c) ∨
       (r' = r ∧ c' + 1 = c) ∨ (r' = r ∧ c' = c + 1)) := by
  rw [getAdjacentPositions, List.mem_filterMap] at ht
  obtain ⟨d, hd, hf⟩ := ht
  simp only [DIRECTIONS, List.mem_cons, List.not_mem_nil, or_false] at hd
  rcases hd with hd | hd | hd | hd <;> subst hd <;> dsimp only at hf <;> split at hf <;>
    rename_i hcond <;> simp only [Option.some.injEq, reduceCtorEq] at hf
  · exact ⟨r - 1, c, by rw [← hf, Pos.mk.injEq]; exact ⟨by omega, by omega⟩, by omega, by omega,
      Or.inl ⟨by omega, rfl⟩⟩
  · exact ⟨r + 1, c, by rw [← hf, Pos.mk.injEq]; exact ⟨by omega, by omega⟩, by omega, by omega,
      Or.inr (Or.inl ⟨by omega, rfl⟩)⟩
  · exact ⟨r, c - 1, by rw [← hf, Pos.mk.injEq]; exact ⟨by omega, by omega⟩, by omega, by omega,
      Or.inr (Or.inr (Or.inl ⟨rfl, by omega⟩))⟩
  · exact ⟨r, c + 1, by rw [← hf, Pos.mk.injEq]; exact ⟨by omega, by omega⟩, by omega, by omega,
      Or.inr (Or.inr (Or.inr ⟨rfl, by omega⟩))⟩

/-!
## Lemmas: the generator invariant survives one swap, per direction
-/

theorem inv_parts_row_right (size : Nat) (T Dr : Board) (A B : List Nat) (v : Nat)
    (hlen : (T ++ (A ++ 0 :: v :: B) :: Dr).length = size)
    (hrows : ∀ r ∈ T ++ (A ++ 0 :: v :: B) :: Dr, r.length = size)
    (hnd : (flatten2DArray (T ++ (A ++ 0 :: v :: B) :: Dr)).Nodup)
    (hsol : isPuzzleSolvable (T ++ (A ++ 0 :: v :: B) :: Dr) = true) :
    (T ++ (A ++ v :: 0 :: B) :: Dr).length = size ∧
    (∀ r ∈ T ++ (A ++ v :: 0 :: B) :: Dr, r.length = size) ∧
    (flatten2DArray (T ++ (A ++ v :: 0 :: B) :: Dr)).Nodup ∧
    get2DD (T ++ (A ++ v :: 0 :: B) :: Dr)
      ⟨(T.length : Int), ((A.length + 1 : Nat) : Int)⟩ = 0 ∧
    isPuzzleSolvable (T ++ (A ++ v :: 0 :: B) :: Dr) = true := by
  have hperm : (flatten2DArray (T ++ (A ++ v :: 0 :: B) :: Dr)).Perm
      (flatten2DArray (T ++ (A ++ 0 :: v :: B) :: Dr)) := by
    have e1 : flatten2DArray (T ++ (A ++ v :: 0 :: B) :: Dr)
        = (flatten2DArray T ++ A) ++ (v :: 0 :: (B ++ flatten2DArray Dr)) := by
      simp [flatten2DArray, List.flatten_append, List.append_assoc]
    have e2 : flatten2DArray (T ++ (A ++ 0 :: v :: B) :: Dr)
        = (flatten2DArray T ++ A) ++ (0 :: v :: (B ++ flatten2DArray Dr)) := by
      simp [flatten2DArray, List.flatten_append, List.append_assoc]
    rw [e1, e2]
    exact List.Perm.append_left _ (List.Perm.swap 0 v _)
  refine ⟨?_, ?_, hperm.nodup_iff.mpr hnd, ?_, ?_⟩
  · simp only [List.length_append, List.length_cons] at hlen ⊢
    exact hlen
  · intro r hr
    rcases List.mem_append.mp hr with h | h
    · exact hrows r (List.mem_append_left _ h)
    · rcases List.mem_cons.mp h with h | h
      · have := hrows (A ++ 0 :: v :: B) (List.mem_append_right _ (List.mem_cons_self _ _))
        subst h
        simp only [List.length_append, List.length_cons] at this ⊢
        omega
      · exact hrows r (List.mem_append_right _ (List.mem_cons_of_mem _ h))
  · simp only [get2DD, Int.toNat_natCast]
    rw [list_getD_len T _ Dr []]
    have h1 : A ++ v :: 0 :: B = (A ++ [v]) ++ 0 :: B := by simp
    have h2 : (A ++ [v]).length = A.length + 1 := by simp
    rw [h1, ← h2, list_getD_len]
  · rw [solvable_swap_row T Dr A B v hnd]
    exact hsol

theorem inv_parts_row_left (size : Nat) (T Dr : Board) (A B : List Nat) (u : Nat)
    (hlen : (T ++ (A ++ u :: 0 :: B) :: Dr).length = size)
    (hrows : ∀ r ∈ T ++ (A ++ u :: 0 :: B) :: Dr, r.length = size)
    (hnd : (flatten2DArray (T ++ (A ++ u :: 0 :: B) :: Dr)).Nodup)
    (hsol : isPuzzleSolvable (T ++ (A ++ u :: 0 :: B) :: Dr) = true) :
    (T ++ (A ++ 0 :: u :: B) :: Dr).length = size ∧
    (∀ r ∈ T ++ (A ++ 0 :: u :: B) :: Dr, r.length = size) ∧
    (flatten2DArray (T ++ (A ++ 0 :: u :: B) :: Dr)).Nodup ∧
    get2DD (T ++ (A ++ 0 :: u :: B) :: Dr) ⟨(T.length : Int), (A.length : Int)⟩ = 0 ∧
    isPuzzleSolvable (T ++ (A ++ 0 :: u :: B) :: Dr) = true := by
  have hperm : (flatten2DArray (T ++ (A ++ 0 :: u :: B) :: Dr)).Perm
      (flatten2DArray (T ++ (A ++ u :: 0 :: B) :: Dr)) := by
    have e1 : flatten2DArray (T ++ (A ++ 0 :: u :: B) :: Dr)
        = (flatten2DArray T ++ A) ++ (0 :: u :: (B ++ flatten2DArray Dr)) := by
      simp [flatten2DArray, List.flatten_append, List.append_assoc]
    have e2 : flatten2DArray (T ++ (A ++ u :: 0 :: B) :: Dr)
        = (flatten2DArray T ++ A) ++ (u :: 0 :: (B ++ flatten2DArray Dr)) := by
      simp [flatten2DArray, List.flatten_append, List.append_assoc]
    rw [e1, e2]
    exact List.Perm.append_left _ (List.Perm.swap u 0 _)
  have hndpost := hperm.nodup_iff.mpr hnd
  refine ⟨?_, ?_, hndpost, ?_, ?_⟩
  · simp only [List.length_append, List.length_cons] at hlen ⊢
    exact hlen
  · intro r hr
    rcases List.mem_append.mp hr with h | h
    · exact hrows r (List.mem_append_left _ h)
    · rcases List.mem_cons.mp h with h | h
      · have := hrows (A ++ u :: 0 :: B) (List.mem_append_right _ (List.mem_cons_self _ _))
        subst h
        simp only [List.length_append, List.length_cons] at this ⊢
        omega
      · exact hrows r (List.mem_append_right _ (List.mem_cons_of_mem _ h))
  · simp only [get2DD, Int.toNat_natCast]
    rw [list_getD_len T _ Dr [], list_getD_len A 0 (u :: B) 0]
  · rw [← solvable_swap_row T Dr A B u hndpost]
    exact hsol

theorem inv_parts_col_down (size : Nat) (T Dr : Board) (A B C E : List Nat) (y : Nat)
    (hAC : A.length = C.length)
    (hlen : (T ++ (A ++ 0 :: B) :: (C ++ y :: E) :: Dr).length = size)
    (hrows : ∀ r ∈ T ++ (A ++ 0 :: B) :: (C ++ y :: E) :: Dr, r.length = size)
    (hnd : (flatten2DArray (T ++ (A ++ 0 :: B) :: (C ++ y :: E) :: Dr)).Nodup)
    (hsol : isPuzzleSolvable (T ++ (A ++ 0 :: B) :: (C ++ y :: E) :: Dr) = true) :
    (T ++ (A ++ y :: B) :: (C ++ 0 :: E) :: Dr).length = size ∧
    (∀ r ∈ T ++ (A ++ y :: B) :: (C ++ 0 :: E) :: Dr, r.length = size) ∧
    (flatten2DArray (T ++ (A ++ y :: B) :: (C ++ 0 :: E) :: Dr)).Nodup ∧
    get2DD (T ++ (A ++ y :: B) :: (C ++ 0 :: E) :: Dr)
      ⟨((T.length + 1 : Nat) : Int), (C.length : Int)⟩ = 0 ∧
    isPuzzleSolvable (T ++ (A ++ y :: B) :: (C ++ 0 :: E) :: Dr) = true := by
  have hperm : (flatten2DArray (T ++ (A ++ y :: B) :: (C ++ 0 :: E) :: Dr)).Perm
      (flatten2DArray (T ++ (A ++ 0 :: B) :: (C ++ y :: E) :: Dr)) := by
    have e1 : flatten2DArray (T ++ (A ++ y :: B) :: (C ++ 0 :: E) :: Dr)
        = (flatten2DArray T ++ A) ++
            (y :: ((B ++ C) ++ 0 :: (E ++ flatten2DArray Dr))) := by
      simp [flatten2DArray, List.flatten_append, List.append_assoc]
    have e2 : flatten2DArray (T ++ (A ++ 0 :: B) :: (C ++ y :: E) :: Dr)
        = (flatten2DArray T ++ A) ++
            (0 :: ((B ++ C) ++ y :: (E ++ flatten2DArray Dr))) := by
      simp [flatten2DArray, List.flatten_append, List.append_assoc]
    rw [e1, e2]
    exact List.Perm.append_left _ (perm_swap_middle y 0 (B ++ C) (E ++ flatten2DArray Dr))
  have hrowtop := hrows (A ++ 0 :: B) (List.mem_append_right _ (List.mem_cons_self _ _))
  have hpar : (B.length + C.length + 1) % 2 = (T.length + Dr.length + 2) % 2 := by
    simp only [List.length_append, List.length_cons] at hrowtop hlen
    omega
  refine ⟨?_, ?_, hperm.nodup_iff.mpr hnd, ?_, ?_⟩
  · simp only [List.length_append, List.length_cons] at hlen ⊢
    exact hlen
  · intro r hr
    rcases List.mem_append.mp hr with h | h
    · exact hrows r (List.mem_append_left _ h)
    · rcases List.mem_cons.mp h with h | h
      · subst h
        simp only [List.length_append, List.length_cons] at hrowtop ⊢
        omega
      · rcases List.mem_cons.mp h with h | h
        · have := hrows (C ++ y :: E) (List.mem_append_right _
            (List.mem_cons_of_mem _ (List.mem_cons_self _ _)))
          subst h
          simp only [List.length_append, List.length_cons] at this ⊢
          omega
        · exact hrows r (List.mem_append_right _
            (List.mem_cons_of_mem _ (List.mem_cons_of_mem _ h)))
  · simp only [get2DD, Int.toNat_natCast]
    have h1 : T ++ (A ++ y :: B) :: (C ++ 0 :: E) :: Dr
        = (T ++ [A ++ y :: B]) ++ (C ++ 0 :: E) :: Dr := by simp
    have h2 : (T ++ [A ++ y :: B]).length = T.length + 1 := by simp
    rw [h1, ← h2, list_getD_len, list_getD_len C 0 E 0]
  · rw [solvable_swap_col T Dr A B C E y hnd hpar]
    exact hsol

theorem inv_parts_col_up (size : Nat) (T Dr : Board) (A B C E : List Nat) (y : Nat)
    (hCA : C.length = A.length)
    (hlen : (T ++ (C ++ y :: E) :: (A ++ 0 :: B) :: Dr).length = size)
    (hrows : ∀ r ∈ T ++ (C ++ y :: E) :: (A ++ 0 :: B) :: Dr, r.length = size)
    (hnd : (flatten2DArray (T ++ (C ++ y :: E) :: (A ++ 0 :: B) :: Dr)).Nodup)
    (hsol : isPuzzleSolvable (T ++ (C ++ y :: E) :: (A ++ 0 :: B) :: Dr) = true) :
    (T ++ (C ++ 0 :: E) :: (A ++ y :: B) :: Dr).length = size ∧
    (∀ r ∈ T ++ (C ++ 0 :: E) :: (A ++ y :: B) :: Dr, r.length = size) ∧
    (flatten2DArray (T ++ (C ++ 0 :: E) :: (A ++ y :: B) :: Dr)).Nodup ∧
    get2DD (T ++ (C ++ 0 :: E) :: (A ++ y :: B) :: Dr)
      ⟨(T.length : Int), (C.length : Int)⟩ = 0 ∧
    isPuzzleSolvable (T ++ (C ++ 0 :: E) :: (A ++ y :: B) :: Dr) = true := by
  have hperm : (flatten2DArray (T ++ (C ++ 0 :: E) :: (A ++ y :: B) :: Dr)).Perm
      (flatten2DArray (T ++ (C ++ y :: E) :: (A ++ 0 :: B) :: Dr)) := by
    have e1 : flatten2DArray (T ++ (C ++ 0 :: E) :: (A ++ y :: B) :: Dr)
        = (flatten2DArray T ++ C) ++
            (0 :: ((E ++ A) ++ y :: (B ++ flatten2DArray Dr))) := by
      simp [flatten2DArray, List.flatten_append, List.append_assoc]
    have e2 : flatten2DArray (T ++ (C ++ y :: E) :: (A ++ 0 :: B) :: Dr)
        = (flatten2DArray T ++ C) ++
            (y :: ((E ++ A) ++ 0 :: (B ++ flatten2DArray Dr))) := by
      simp [flatten2DArray, List.flatten_append, List.append_assoc]
    rw [e1, e2]
    exact List.Perm.append_left _ (perm_swap_middle 0 y (E ++ A) (B ++ flatten2DArray Dr))
  have hndpost := hperm.nodup_iff.mpr hnd
  have hrowtop := hrows (C ++ y :: E) (List.mem_append_right _ (List.mem_cons_self _ _))
  have hpar : (E.length + A.length + 1) % 2 = (T.length + Dr.length + 2) % 2 := by
    simp only [List.length_append, List.length_cons] at hrowtop hlen
    omega
  refine ⟨?_, ?_, hndpost, ?_, ?_⟩
  · simp only [List.length_append, List.length_cons] at hlen ⊢
    exact hlen
  · intro r hr
    rcases List.mem_append.mp hr with h | h
    · exact hrows r (List.mem_append_left _ h)
    · rcases List.mem_cons.mp h with h | h
      · subst h
        simp only [List.length_append, List.length_cons] at hrowtop ⊢
        omega
      · rcases List.mem_cons.mp h with h | h
        · have := hrows (A ++ 0 :: B) (List.mem_append_right _
            (List.mem_cons_of_mem _ (List.mem_cons_self _ _)))
          subst h
          simp only [List.length_append, List.length_cons] at this ⊢
          omega
        · exact hrows r (List.mem_append_right _
            (List.mem_cons_of_mem _ (List.mem_cons_of_mem _ h)))
  · simp only [get2DD, Int.toNat_natCast]
    rw [list_getD_len T _ _ [], list_getD_len C 0 E 0]
  · rw [← solvable_swap_col T Dr C E A B y hndpost hpar]
    exact hsol

/-- The invariant carried through the generator loop: square shape,
no duplicate tiles, tracked empty position in bounds and holding 0, and
analyzer-accepted board. -/
def GenInv (size : Nat) (s : GenState) : Prop :=
  s.puzzle.length = size ∧
  (∀ r ∈ s.puzzle, r.length = size) ∧
  (flatten2DArray s.puzzle).Nodup ∧
  0 ≤ s.emptyPos.row ∧ s.emptyPos.row < (size : Int) ∧
  0 ≤ s.emptyPos.col ∧ s.emptyPos.col < (size : Int) ∧
  get2DD s.puzzle s.emptyPos = 0 ∧
  isPuzzleSolvable s.puzzle = true

theorem getD_filter_cases {α : Type} (l : List α) (f : α → Bool) (n : Nat) (d : α) :
    (l.filter f).getD n d ∈ l ∨ (l.filter f).getD n d = d := by
  by_cases h : n < (l.filter f).length
  · exact Or.inl (List.mem_of_mem_filter (getD_mem_of_lt _ n d h))
  · exact Or.inr (List.getD_eq_default _ d (by omega))

theorem genStep_inv (size : Nat) (choices : Nat → Nat) (i : Nat) (s : GenState)
    (h : GenInv size s) : GenInv size (genStep size choices i s) := by
  obtain ⟨hlen, hrows, hnd, hr0, hr1, hc0, hc1, hemp, hsol⟩ := h
  obtain ⟨rm, hstep, hcase⟩ : ∃ rm : Pos,
      genStep size choices i s =
        ⟨swapPositions s.puzzle s.emptyPos rm, rm, some s.emptyPos⟩ ∧
      (rm ∈ getAdjacentPositions s.emptyPos.row s.emptyPos.col size ∨ rm = s.emptyPos) :=
    ⟨_, rfl, getD_filter_cases _ _ _ _⟩
  rw [hstep]
  unfold GenInv
  dsimp only
  rcases hcase with hmem | hself
  case inr =>
    rw [hself, swapPositions_self]
    exact ⟨hlen, hrows, hnd, hr0, hr1, hc0, hc1, hemp, hsol⟩
  case inl =>
    obtain ⟨er, ec, heq, her, hec⟩ : ∃ er ec : Nat,
        s.emptyPos = ⟨(er : Int), (ec : Int)⟩ ∧ er < size ∧ ec < size := by
      refine ⟨s.emptyPos.row.toNat, s.emptyPos.col.toNat, ?_, by omega, by omega⟩
      rw [show s.emptyPos = (⟨s.emptyPos.row, s.emptyPos.col⟩ : Pos) from rfl, Pos.mk.injEq]
      exact ⟨(Int.toNat_of_nonneg hr0).symm, (Int.toNat_of_nonneg hc0).symm⟩
    rw [heq] at hmem hemp ⊢
    dsimp only at hmem
    obtain ⟨r', c', hrm', hr's, hc's, hrel⟩ := adjacent_cases er ec size rm hmem
    subst hrm'
    dsimp only
    obtain ⟨p, hpdef⟩ : ∃ p, s.puzzle = p := ⟨_, rfl⟩
    rw [hpdef] at hlen hrows hnd hemp hsol ⊢
    have hempL : (p.getD er []).getD ec 0 = 0 := by
      simpa [get2DD, Int.toNat_natCast] using hemp
    have hrowlen : (p.getD er []).length = size :=
      hrows _ (getD_mem_of_lt p er [] (by omega))
    rcases hrel with ⟨h1, h2⟩ | ⟨h1, h2⟩ | ⟨h1, h2⟩ | ⟨h1, h2⟩
    · -- up move: empty at row er = r' + 1, tile above at row r'
      obtain ⟨rowU, hrowU⟩ : ∃ row, p.getD r' [] = row := ⟨_, rfl⟩
      obtain ⟨rowL, hrowL⟩ : ∃ row, p.getD er [] = row := ⟨_, rfl⟩
      have hrowUlen : rowU.length = size := by
        rw [← hrowU]
        exact hrows _ (getD_mem_of_lt p r' [] (by omega))
      have hrowLlen : rowL.length = size := by
        rw [← hrowL]
        exact hrowlen
      have hempL' : rowL.getD ec 0 = 0 := by
        rw [← hrowL]
        exact hempL
      have hp2 : p = p.take r' ++ rowU :: rowL :: p.drop (r' + 2) := by
        have hh1 : p = p.take r' ++ rowU :: p.drop (r' + 1) := by
          rw [← hrowU]
          exact list_decomp p r' [] (by omega)
        have hh2 : p.drop (r' + 1) = rowL :: p.drop (r' + 2) := by
          have hd := list_decomp (p.drop (r' + 1)) 0 [] (by simp [List.length_drop]; omega)
          simp only [List.take_zero, List.nil_append, getD_drop_zero, List.drop_drop] at hd
          rw [show r' + 1 = er from h1, hrowL] at hd
          rw [show er + (0 + 1) = r' + 2 from by omega] at hd
          rw [show r' + 1 = er from h1]
          exact hd
        conv_lhs => rw [hh1, hh2]
      obtain ⟨C, y, E, hrowUdec, hC⟩ : ∃ C y E, rowU = C ++ y :: E ∧ C.length = ec := by
        refine ⟨rowU.take ec, rowU.getD ec 0, rowU.drop (ec + 1),
          list_decomp rowU ec 0 (by omega), by simp [List.length_take]; omega⟩
      obtain ⟨A, B, hrowLdec, hA⟩ : ∃ A B, rowL = A ++ 0 :: B ∧ A.length = ec := by
        refine ⟨rowL.take ec, rowL.drop (ec + 1), ?_, by simp [List.length_take]; omega⟩
        have hd := list_decomp rowL ec 0 (by omega)
        rwa [hempL'] at hd
      have hT : (p.take r').length = r' := by simp [List.length_take]; omega
      have hpfull : p = p.take r' ++ (C ++ y :: E) :: (A ++ 0 :: B) :: p.drop (r' + 2) := by
        conv_lhs => rw [hp2, hrowUdec, hrowLdec]
      rw [hpfull] at hlen hrows hnd hsol ⊢
      rw [show ((er : Nat) : Int) = (((p.take r').length + 1 : Nat) : Int) by omega,
        show ((ec : Nat) : Int) = ((C.length : Nat) : Int) by omega,
        show ((r' : Nat) : Int) = (((p.take r').length : Nat) : Int) by omega,
        show ((c' : Nat) : Int) = ((C.length : Nat) : Int) by omega]
      rw [swapPositions_col_up (p.take r') (p.drop (r' + 2)) C E A B y 0 (by omega)]
      obtain ⟨g1, g2, g3, g4, g5⟩ :=
        inv_parts_col_up size (p.take r') (p.drop (r' + 2)) A B C E y (by omega)
          hlen hrows hnd hsol
      exact ⟨g1, g2, g3, by omega, by omega, by omega, by omega, g4, g5⟩
    · -- down move: empty at row er, tile below at row r' = er + 1
      obtain ⟨rowE, hrowE⟩ : ∃ row, p.getD er [] = row := ⟨_, rfl⟩
      obtain ⟨rowT, hrowT⟩ : ∃ row, p.getD (er + 1) [] = row := ⟨_, rfl⟩
      have hrowElen : rowE.length = size := by
        rw [← hrowE]
        exact hrowlen
      have hrowTlen : rowT.length = size := by
        rw [← hrowT]
        exact hrows _ (getD_mem_of_lt p (er + 1) [] (by omega))
      have hempL' : rowE.getD ec 0 = 0 := by
        rw [← hrowE]
        exact hempL
      have hp2 : p = p.take er ++ rowE :: rowT :: p.drop (er + 2) := by
        have hh1 : p = p.take er ++ rowE :: p.drop (er + 1) := by
          rw [← hrowE]
          exact list_decomp p er [] (by omega)
        have hh2 : p.drop (er + 1) = rowT :: p.drop (er + 2) := by
          have hd := list_decomp (p.drop (er + 1)) 0 [] (by simp [List.length_drop]; omega)
          simp only [List.take_zero, List.nil_append, getD_drop_zero, List.drop_drop] at hd
          rw [hrowT] at hd
          rw [show er + 1 + (0 + 1) = er + 2 from by omega] at hd
          exact hd
        conv_lhs => rw [hh1, hh2]
      obtain ⟨A, B, hrowEdec, hA⟩ : ∃ A B, rowE = A ++ 0 :: B ∧ A.length = ec := by
        refine ⟨rowE.take ec, rowE.drop (ec + 1), ?_, by simp [List.length_take]; omega⟩
        have hd := list_decomp rowE ec 0 (by omega)
        rwa [hempL'] at hd
      obtain ⟨C, y, E, hrowTdec, hC⟩ : ∃ C y E, rowT = C ++ y :: E ∧ C.length = ec := by
        refine ⟨rowT.take ec, rowT.getD ec 0, rowT.drop (ec + 1),
          list_decomp rowT ec 0 (by omega), by simp [List.length_take]; omega⟩
      have hT : (p.take er).length = er := by simp [List.length_take]; omega
      have hpfull : p = p.take er ++ (A ++ 0 :: B) :: (C ++ y :: E) :: p.drop (er + 2) := by
        conv_lhs => rw [hp2, hrowEdec, hrowTdec]
      rw [hpfull] at hlen hrows hnd hsol ⊢
      rw [show ((er : Nat) : Int) = (((p.take er).length : Nat) : Int) by omega,
        show ((ec : Nat) : Int) = ((A.length : Nat) : Int) by omega,
        show ((r' : Nat) : Int) = (((p.take er).length + 1 : Nat) : Int) by omega,
        show ((c' : Nat) : Int) = ((A.length : Nat) : Int) by omega]
      rw [swapPositions_col_down (p.take er) (p.drop (er + 2)) A B C E 0 y (by omega)]
      obtain ⟨g1, g2, g3, g4, g5⟩ :=
        inv_parts_col_down size (p.take er) (p.drop (er + 2)) A B C E y (by omega)
          hlen hrows hnd hsol
      refine ⟨g1, g2, g3, by omega, by omega, by omega, by omega, ?_, g5⟩
      rw [show ((A.length : Nat) : Int) = ((C.length : Nat) : Int) by omega]
      exact g4
    · -- left move: empty at col ec = c' + 1, tile at col c'
      obtain ⟨row, hrow⟩ : ∃ row, p.getD er [] = row := ⟨_, rfl⟩
      have hrowlen' : row.length = size := by
        rw [← hrow]
        exact hrowlen
      have hempL' : row.getD ec 0 = 0 := by
        rw [← hrow]
        exact hempL
      obtain ⟨A, u, B, hrowdec, hA⟩ : ∃ A u B, row = A ++ u :: 0 :: B ∧ A.length = c' := by
        refine ⟨row.take c', row.getD c' 0, (row.drop ec).drop 1, ?_,
          by simp [List.length_take]; omega⟩
        have hd1 := list_decomp row c' 0 (by omega)
        rw [show c' + 1 = ec from h2] at hd1
        have hd2 := list_decomp (row.drop ec) 0 0 (by simp [List.length_drop]; omega)
        simp only [List.take_zero, List.nil_append, getD_drop_zero] at hd2
        rw [hempL'] at hd2
        conv_lhs => rw [hd1, hd2]
      have hp1 : p = p.take er ++ row :: p.drop (er + 1) := by
        rw [← hrow]
        exact list_decomp p er [] (by omega)
      have hT : (p.take er).length = er := by simp [List.length_take]; omega
      have hpfull : p = p.take er ++ (A ++ u :: 0 :: B) :: p.drop (er + 1) := by
        conv_lhs => rw [hp1, hrowdec]
      rw [hpfull] at hlen hrows hnd hsol ⊢
      rw [show ((er : Nat) : Int) = (((p.take er).length : Nat) : Int) by omega,
        show ((ec : Nat) : Int) = ((A.length + 1 : Nat) : Int) by omega,
        show ((r' : Nat) : Int) = (((p.take er).length : Nat) : Int) by omega,
        show ((c' : Nat) : Int) = ((A.length : Nat) : Int) by omega]
      rw [swapPositions_row_left (p.take er) (p.drop (er + 1)) A B u 0]
      obtain ⟨g1, g2, g3, g4, g5⟩ :=
        inv_parts_row_left size (p.take er) (p.drop (er + 1)) A B u hlen hrows hnd hsol
      exact ⟨g1, g2, g3, by omega, by omega, by omega, by omega, g4, g5⟩
    · -- right move: empty at col ec, tile at col c' = ec + 1
      obtain ⟨row, hrow⟩ : ∃ row, p.getD er [] = row := ⟨_, rfl⟩
      have hrowlen' : row.length = size := by
        rw [← hrow]
        exact hrowlen
      have hempL' : row.getD ec 0 = 0 := by
        rw [← hrow]
        exact hempL
      obtain ⟨A, v, B, hrowdec, hA⟩ : ∃ A v B, row = A ++ 0 :: v :: B ∧ A.length = ec := by
        refine ⟨row.take ec, (row.drop (ec + 1)).getD 0 0, (row.drop (ec + 1)).drop 1, ?_,
          by simp [List.length_take]; omega⟩
        have hd1 := list_decomp row ec 0 (by omega)
        rw [hempL'] at hd1
        have hd2 := list_decomp (row.drop (ec + 1)) 0 0 (by simp [List.length_drop]; omega)
        simp only [List.take_zero, List.nil_append] at hd2
        conv_lhs => rw [hd1, hd2]
      have hp1 : p = p.take er ++ row :: p.drop (er + 1) := by
        rw [← hrow]
        exact list_decomp p er [] (by omega)
      have hT : (p.take er).length = er := by simp [List.length_take]; omega
      have hpfull : p = p.take er ++ (A ++ 0 :: v :: B) :: p.drop (er + 1) := by
        conv_lhs => rw [hp1, hrowdec]
      rw [hpfull] at hlen hrows hnd hsol ⊢
      rw [show ((er : Nat) : Int) = (((p.take er).length : Nat) : Int) by omega,
        show ((ec : Nat) : Int) = ((A.length : Nat) : Int) by omega,
        show ((r' : Nat) : Int) = (((p.take er).length : Nat) : Int) by omega,
        show ((c' : Nat) : Int) = ((A.length + 1 : Nat) : Int) by omega]
      rw [swapPositions_row_right (p.take er) (p.drop (er + 1)) A B 0 v]
      obtain ⟨g1, g2, g3, g4, g5⟩ :=
        inv_parts_row_right size (p.take er) (p.drop (er + 1)) A B v hlen hrows hnd hsol
      exact ⟨g1, g2, g3, by omega, by omega, by omega, by omega, g4, g5⟩

theorem genRun_inv (size : Nat) (choices : Nat → Nat)
    (h0 : GenInv size (genRun size choices 0)) (n : Nat) :
    GenInv size (genRun size choices n) := by
  induction n with
  | zero => exact h0
  | succ n ih => exact genStep_inv size choices n _ ih

/-!
## Claim theorems
-/

/-- C3 counterexample: a `moveBudget = 1` session that makes one
non-winning move (receiving the game-over notification) is NOT terminal —
a further valid `moveTile` call returns `true` and changes the board, and
`undoLastMove` also returns `true`. -/
theorem exhausted_session_accepts_moves_cex :
    (moveTile (exSession [[1, 2, 3], [4, 5, 6], [0, 7, 8]] 1) 2 1 100).2.1 = true ∧
    Event.gameOver "Out of moves" ∈
      (moveTile (exSession [[1, 2, 3], [4, 5, 6], [0, 7, 8]] 1) 2 1 100).2.2 ∧
    (moveTile (moveTile (exSession [[1, 2, 3], [4, 5, 6], [0, 7, 8]] 1) 2 1 100).1
        1 1 200).2.1 = true ∧
    (moveTile (moveTile (exSession [[1, 2, 3], [4, 5, 6], [0, 7, 8]] 1) 2 1 100).1
        1 1 200).1.currentState ≠
      (moveTile (exSession [[1, 2, 3], [4, 5, 6], [0, 7, 8]] 1) 2 1 100).1.currentState ∧
    (undoLastMove (moveTile (exSession [[1, 2, 3], [4, 5, 6], [0, 7, 8]] 1) 2 1 100).1).2.1 =
      true := by
  decide

/-- C3 amended: when the move count reaches the budget without solving, the
session stamps the end time and emits the game-over notification, but it
is not terminal: `isComplete` stays false, every further validator-approved
`moveTile` call succeeds, and `undoLastMove` succeeds whenever history is
non-empty.  Only the Solved state (`isComplete`) blocks `move`/`undo`. -/
theorem exhaustion_not_terminal :
    ((moveTile (exSession [[1, 2, 3], [4, 5, 6], [0, 7, 8]] 1) 2 1 100).1.endTime = some 100 ∧
     (moveTile (exSession [[1, 2, 3], [4, 5, 6], [0, 7, 8]] 1) 2 1 100).1.isComplete = false) ∧
    (∀ (s : Puzzle) (row col : Int) (now : Nat) (e : Pos),
      s.isComplete = false →
      ¬(row < 0 ∨ (s.size : Int) ≤ row ∨ col < 0 ∨ (s.size : Int) ≤ col) →
      findEmptyPosition s.currentState = some e →
      areAdjacent ⟨row, col⟩ e = true →
      (moveTile s row col now).2.1 = true) ∧
    (∀ s : Puzzle, s.isComplete = false → s.moveHistory ≠ [] →
      (undoLastMove s).2.1 = true) :=
  ⟨⟨by decide, by decide⟩,
   fun s row col now e hnc hnoob hfe hadj => moveTile_valid_true s row col now e hnc hnoob hfe hadj,
   fun s h1 h2 => undoLastMove_success s h1 h2⟩

/-- Witness for `exhaustion_not_terminal` at the exhausted budget-1 session. -/
theorem exhaustion_not_terminal_witness :
    (moveTile (moveTile (exSession [[1, 2, 3], [4, 5, 6], [0, 7, 8]] 1) 2 1 100).1
        1 1 200).2.1 = true ∧
    (undoLastMove (moveTile (exSession [[1, 2, 3], [4, 5, 6], [0, 7, 8]] 1) 2 1 100).1).2.1 =
      true :=
  ⟨exhaustion_not_terminal.2.1 (moveTile (exSession [[1, 2, 3], [4, 5, 6], [0, 7, 8]] 1) 2 1 100).1
      1 1 200 ⟨2, 1⟩ (by decide) (by decide) (by decide) (by decide),
   exhaustion_not_terminal.2.2 (moveTile (exSession [[1, 2, 3], [4, 5, 6], [0, 7, 8]] 1) 2 1 100).1
      (by decide) (by decide)⟩

/-- C4 counterexample: from the non-terminal session one move away from
solved, the winning `moveTile` succeeds, but the immediately following
`undoLastMove` returns failure and restores nothing. -/
theorem move_undo_roundtrip_cex :
    (exSession [[1, 2, 3], [4, 5, 6], [7, 0, 8]] 100).isComplete = false ∧
    (moveTile (exSession [[1, 2, 3], [4, 5, 6], [7, 0, 8]] 100) 2 2 50).2.1 = true ∧
    (undoLastMove (moveTile (exSession [[1, 2, 3], [4, 5, 6], [7, 0, 8]] 100) 2 2 50).1).2.1 =
      false ∧
    (undoLastMove (moveTile (exSession [[1, 2, 3], [4, 5, 6], [7, 0, 8]] 100) 2 2 50).1).1.currentState ≠
      (exSession [[1, 2, 3], [4, 5, 6], [7, 0, 8]] 100).currentState ∧
    (undoLastMove (moveTile (exSession [[1, 2, 3], [4, 5, 6], [7, 0, 8]] 100) 2 2 50).1).1.moveCount ≠
      (exSession [[1, 2, 3], [4, 5, 6], [7, 0, 8]] 100).moveCount := by
  decide

/-- C4 amended: the move/undo round-trip law holds for every successful
move that does NOT solve the puzzle (a winning move sets `isComplete`,
after which `undoLastMove` refuses). -/
theorem move_undo_roundtrip_nonwinning (s : Puzzle) (row col : Int) (now : Nat) (e : Pos)
    (hnc : s.isComplete = false)
    (hnoob : ¬(row < 0 ∨ (s.size : Int) ≤ row ∨ col < 0 ∨ (s.size : Int) ≤ col))
    (hfe : findEmptyPosition s.currentState = some e)
    (hadj : areAdjacent ⟨row, col⟩ e = true)
    (hnw : isPuzzleSolved (swapPositions s.currentState ⟨row, col⟩ e) = false) :
    (moveTile s row col now).2.1 = true ∧
    (undoLastMove (moveTile s row col now).1).2.1 = true ∧
    (undoLastMove (moveTile s row col now).1).1.currentState = s.currentState ∧
    (undoLastMove (moveTile s row col now).1).1.moveCount = s.moveCount ∧
    (undoLastMove (moveTile s row col now).1).1.moveHistory.length = s.moveHistory.length := by
  obtain ⟨hc, hcur, hcount, hhist⟩ :=
    moveTile_nonwinning_state s row col now e hnc hnoob hfe hadj hnw
  have htrue := moveTile_valid_true s row col now e hnc hnoob hfe hadj
  have hne : (moveTile s row col now).1.moveHistory ≠ [] := by
    rw [hhist]; simp
  have hlast := hhist ▸ List.getLast?_concat (l := s.moveHistory)
  obtain ⟨u1, u2, u3⟩ := undoLastMove_state (moveTile s row col now).1 _ hc hne hlast
  refine ⟨htrue, undoLastMove_success _ hc hne, ?_, ?_, ?_⟩
  · rw [u1]
  · rw [u2, hcount]; omega
  · rw [u3, hhist, List.dropLast_concat]

/-- Witness for `move_undo_roundtrip_nonwinning` at a concrete non-winning
move. -/
theorem move_undo_roundtrip_nonwinning_witness :
    (moveTile (exSession [[1, 2, 3], [4, 5, 6], [0, 7, 8]] 100) 2 1 40).2.1 = true ∧
    (undoLastMove (moveTile (exSession [[1, 2, 3], [4, 5, 6], [0, 7, 8]] 100) 2 1 40).1).2.1 =
      true ∧
    (undoLastMove (moveTile (exSession [[1, 2, 3], [4, 5, 6], [0, 7, 8]] 100) 2 1 40).1).1.currentState =
      (exSession [[1, 2, 3], [4, 5, 6], [0, 7, 8]] 100).currentState ∧
    (undoLastMove (moveTile (exSession [[1, 2, 3], [4, 5, 6], [0, 7, 8]] 100) 2 1 40).1).1.moveCount =
      (exSession [[1, 2, 3], [4, 5, 6], [0, 7, 8]] 100).moveCount ∧
    (undoLastMove (moveTile (exSession [[1, 2, 3], [4, 5, 6], [0, 7, 8]] 100) 2 1 40).1).1.moveHistory.length =
      (exSession [[1, 2, 3], [4, 5, 6], [0, 7, 8]] 100).moveHistory.length :=
  move_undo_roundtrip_nonwinning (exSession [[1, 2, 3], [4, 5, 6], [0, 7, 8]] 100) 2 1 40 ⟨2, 0⟩
    (by decide) (by decide) (by decide) (by decide) (by decide)

/-- C2: for every board size S in {3, 4, 5}, every shuffle-step count
K ≥ 0, and every sequence of random choices, `generateSolvablePuzzle`
returns a board accepted by `isPuzzleSolvable`. -/
theorem generator_always_solvable :
    ∀ size : Nat, size = 3 ∨ size = 4 ∨ size = 5 →
    ∀ (shuffleMoves : Nat) (choices : Nat → Nat),
      isPuzzleSolvable (generateSolvablePuzzle size shuffleMoves choices) = true := by
  intro size hsize shuffleMoves choices
  have h0 : GenInv size (genRun size choices 0) := by
    have hzero : genRun size choices 0 =
        ⟨createSolvedPuzzle size, (findEmptyPosition (createSolvedPuzzle size)).getD ⟨0, 0⟩,
          none⟩ := rfl
    rw [hzero]
    rcases hsize with h | h | h <;> subst h <;>
      exact ⟨by decide, by decide, by decide, by decide, by decide, by decide, by decide,
        by decide, by decide⟩
  exact (genRun_inv size choices h0 shuffleMoves).2.2.2.2.2.2.2.2

/-- Witness for `generator_always_solvable` at a concrete size, length and
choice oracle. -/
theorem generator_always_solvable_witness :
    isPuzzleSolvable (generateSolvablePuzzle 3 5 (fun i => i + 1)) = true :=
  generator_always_solvable 3 (Or.inl rfl) 5 (fun i => i + 1)

/-- C5 counterexample: a validation failure on a fresh session DOES mutate
session state — `moveTile` starts the session timer before validating, so
a rejected out-of-bounds first move sets `startTime`. -/
theorem invalid_move_sets_start_time_cex :
    (puzzleNew 3).startTime = none ∧
    (moveTile (puzzleNew 3) (-1) 0 77).2.1 = false ∧
    (moveTile (puzzleNew 3) (-1) 0 77).2.2 =
      [.invalidMove "Position out of bounds" ⟨-1, 0⟩] ∧
    (moveTile (puzzleNew 3) (-1) 0 77).1.startTime = some 77 := by
  decide

/-- C5 amended: on validation failure (out of bounds, or not adjacent to
the empty cell) `moveTile` returns failure leaving the board, move count,
move history, completion flag, and end time unchanged; the session start
timestamp, however, is set to the current time if it was still unset,
because the timer is started before validation. -/
theorem invalid_move_preserves_state_except_timer (s : Puzzle) (row col : Int) (now : Nat)
    (hnc : s.isComplete = false)
    (hfail : (row < 0 ∨ (s.size : Int) ≤ row ∨ col < 0 ∨ (s.size : Int) ≤ col) ∨
      ∃ e, findEmptyPosition s.currentState = some e ∧ areAdjacent ⟨row, col⟩ e = false) :
    (moveTile s row col now).2.1 = false ∧
    (moveTile s row col now).1.currentState = s.currentState ∧
    (moveTile s row col now).1.moveCount = s.moveCount ∧
    (moveTile s row col now).1.moveHistory = s.moveHistory ∧
    (moveTile s row col now).1.isComplete = s.isComplete ∧
    (moveTile s row col now).1.endTime = s.endTime ∧
    (moveTile s row col now).1.startTime =
      (if s.startTime = none then some now else s.startTime) := by
  by_cases hoob : row < 0 ∨ (s.size : Int) ≤ row ∨ col < 0 ∨ (s.size : Int) ≤ col
  · rw [moveTile_eq_oob s row col now hnc hoob]
    exact ⟨rfl, rfl, rfl, rfl, rfl, rfl, rfl⟩
  · rcases hfail with h | ⟨e, hfe, hnadj⟩
    · exact absurd h hoob
    · rw [moveTile_eq_notadj s row col now e hnc hoob hfe hnadj]
      exact ⟨rfl, rfl, rfl, rfl, rfl, rfl, rfl⟩

/-- Witness for `invalid_move_preserves_state_except_timer` at an
out-of-bounds move on a fresh session. -/
theorem invalid_move_preserves_state_except_timer_witness :
    (moveTile (puzzleNew 3) (-1) 0 77).2.1 = false ∧
    (moveTile (puzzleNew 3) (-1) 0 77).1.currentState = (puzzleNew 3).currentState ∧
    (moveTile (puzzleNew 3) (-1) 0 77).1.moveCount = (puzzleNew 3).moveCount ∧
    (moveTile (puzzleNew 3) (-1) 0 77).1.moveHistory = (puzzleNew 3).moveHistory ∧
    (moveTile (puzzleNew 3) (-1) 0 77).1.isComplete = (puzzleNew 3).isComplete ∧
    (moveTile (puzzleNew 3) (-1) 0 77).1.endTime = (puzzleNew 3).endTime ∧
    (moveTile (puzzleNew 3) (-1) 0 77).1.startTime =
      (if (puzzleNew 3).startTime = none then some 77 else (puzzleNew 3).startTime) :=
  invalid_move_preserves_state_except_timer (puzzleNew 3) (-1) 0 77 (by decide)
    (Or.inl (by decide))

/-- C6 counterexample: `setPuzzleState` on an analyzer-rejected board does
not signal the failure as a result value — it throws (`Except.error`
models the JS `throw new Error(...)`). -/
theorem set_state_unsolvable_throws_cex :
    setPuzzleState (puzzleNew 3) [[1, 2, 3], [4, 5, 6], [8, 7, 0]] 100 =
      Except.error "Puzzle state is not solvable" := by
  rfl

/-- C6 amended: when the caller-supplied board of the session's size is
rejected by the Solvability Analyzer, `setPuzzleState` throws an `Error`
with message "Puzzle state is not solvable" — before any session field is
written, so the session keeps its previous state. -/
theorem set_state_unsolvable_error (s : Puzzle) (b : Board) (m : Int)
    (hlen : b.length = s.size) (hunsolv : isPuzzleSolvable b = false) :
    setPuzzleState s b m = Except.error "Puzzle state is not solvable" := by
  simp [setPuzzleState, hlen, hunsolv]

/-- Witness for `set_state_unsolvable_error` at the swapped 3×3 board. -/
theorem set_state_unsolvable_error_witness :
    setPuzzleState (puzzleNew 3) [[1, 2, 3], [4, 5, 6], [8, 7, 0]] 100 =
      Except.error "Puzzle state is not solvable" :=
  set_state_unsolvable_error (puzzleNew 3) [[1, 2, 3], [4, 5, 6], [8, 7, 0]] 100
    (by decide) (by decide)

/-- C7: on `[[1,2,3],[4,5,6],[7,0,8]]`, `getValidMoves` returns exactly
tiles 5 (up), 7 (left), 8 (right) in that fixed order, and moving the tile
at (2,2) yields the solved 3×3 board, making `isSolved()` true. -/
theorem valid_moves_and_winning_move_scenario :
    getValidMoves [[1, 2, 3], [4, 5, 6], [7, 0, 8]] =
      [⟨1, 1, some 5, "up"⟩, ⟨2, 0, some 7, "left"⟩, ⟨2, 2, some 8, "right"⟩] ∧
    (moveTile (exSession [[1, 2, 3], [4, 5, 6], [7, 0, 8]] 100) 2 2 50).2.1 = true ∧
    (moveTile (exSession [[1, 2, 3], [4, 5, 6], [7, 0, 8]] 100) 2 2 50).1.currentState =
      [[1, 2, 3], [4, 5, 6], [7, 8, 0]] ∧
    createSolvedPuzzle 3 = [[1, 2, 3], [4, 5, 6], [7, 8, 0]] ∧
    puzzleIsSolved (moveTile (exSession [[1, 2, 3], [4, 5, 6], [7, 0, 8]] 100) 2 2 50).1 =
      true := by
  decide

/-- C8 counterexample: selecting the empty cell itself is rejected by the
standalone validator with "Cannot move empty tile", but the state
machine's `moveTile` — which never checks for the empty cell — rejects it
with the not-adjacent reason instead. -/
theorem empty_tile_selection_reason_cex :
    validateTileMove [[1, 2, 3], [4, 5, 6], [7, 0, 8]] 2 1 =
      ⟨false, "Cannot move empty tile"⟩ ∧
    (moveTile (exSession [[1, 2, 3], [4, 5, 6], [7, 0, 8]] 100) 2 1 10).2.1 = false ∧
    (moveTile (exSession [[1, 2, 3], [4, 5, 6], [7, 0, 8]] 100) 2 1 10).2.2 =
      [.invalidMove "Tile not adjacent to empty space" ⟨2, 1⟩] := by
  decide

/-- C8 amended: `validateTileMove` fails with the empty-tile reason on any
in-bounds empty cell; `moveTile`, by contrast, has no empty-cell check and
fails such a selection with the not-adjacent reason (the empty cell is
never adjacent to itself). -/
theorem empty_tile_selection_reasons :
    (∀ (p : Board) (row col : Int),
      isValidBoardPosition row col p.length = true →
      getValueAt p row col = some EMPTY_TILE →
      validateTileMove p row col = ⟨false, "Cannot move empty tile"⟩) ∧
    (∀ (s : Puzzle) (row col : Int) (now : Nat),
      s.isComplete = false →
      ¬(row < 0 ∨ (s.size : Int) ≤ row ∨ col < 0 ∨ (s.size : Int) ≤ col) →
      findEmptyPosition s.currentState = some ⟨row, col⟩ →
      moveTile s row col now =
        ({ s with startTime := if s.startTime = none then some now else s.startTime },
         false, [.invalidMove "Tile not adjacent to empty space" ⟨row, col⟩])) := by
  constructor
  · intro p row col hpos hval
    simp [validateTileMove, hpos, hval]
  · intro s row col now hnc hnoob hfe
    exact moveTile_eq_notadj s row col now ⟨row, col⟩ hnc hnoob hfe (areAdjacent_self _)

/-- Witness for `empty_tile_selection_reasons` at the concrete 3×3 board. -/
theorem empty_tile_selection_reasons_witness :
    validateTileMove [[1, 2, 3], [4, 5, 6], [7, 0, 8]] 2 1 =
      ⟨false, "Cannot move empty tile"⟩ ∧
    moveTile (exSession [[1, 2, 3], [4, 5, 6], [7, 0, 8]] 100) 2 1 10 =
      ({ exSession [[1, 2, 3], [4, 5, 6], [7, 0, 8]] 100 with
          startTime := if (exSession [[1, 2, 3], [4, 5, 6], [7, 0, 8]] 100).startTime = none
            then some 10 else (exSession [[1, 2, 3], [4, 5, 6], [7, 0, 8]] 100).startTime },
       false, [.invalidMove "Tile not adjacent to empty space" ⟨2, 1⟩]) :=
  ⟨empty_tile_selection_reasons.1 [[1, 2, 3], [4, 5, 6], [7, 0, 8]] 2 1 (by decide) (by decide),
   empty_tile_selection_reasons.2 (exSession [[1, 2, 3], [4, 5, 6], [7, 0, 8]] 100) 2 1 10
     (by decide) (by decide) (by decide)⟩

/-- C10: `getMovesRemaining` is the clamp `max 0 (maxMoves − moveCount)`
and hence never negative, for every session state, including those whose
move count exceeds the budget. -/
theorem moves_remaining_clamped (s : Puzzle) :
    getMovesRemaining s = max 0 (s.maxMoves - s.moveCount) ∧ 0 ≤ getMovesRemaining s :=
  ⟨rfl, le_max_left 0 _⟩

/-- C9 counterexample: the boards inside `exportState()` are NOT fresh
copies — `exportState` returns the internal references, so mutating the
exported current board changes the session's stored board and every
subsequent `getCurrentState` query. -/
theorem export_state_aliases_cex :
    (exportStateH sessionRefs).currentState = sessionRefs.currentState ∧
    Heap.read heapEx sessionRefs.currentState = [[1, 2], [3, 0]] ∧
    Heap.read (heapEx.write (exportStateH sessionRefs).currentState [[9, 9], [9, 9]])
        sessionRefs.currentState = [[9, 9], [9, 9]] ∧
    Heap.read
        (getCurrentStateH
          (heapEx.write (exportStateH sessionRefs).currentState [[9, 9], [9, 9]])
          sessionRefs).1
        (getCurrentStateH
          (heapEx.write (exportStateH sessionRefs).currentState [[9, 9], [9, 9]])
          sessionRefs).2 = [[9, 9], [9, 9]] := by
  exact ⟨rfl, rfl, rfl, rfl⟩

/-- C9 amended: `getCurrentState` and `getSolvedState` do return fresh
copies — mutating their results leaves every internal board (current,
initial, solved, and the history snapshots) unchanged — but `exportState`
returns the internal references themselves, with no copy. -/
theorem query_copies_but_export_aliases :
    (∀ (h : Heap) (p : PuzzleRefs), p.wf h → ∀ b : Board,
      (getCurrentStateH h p).2 ≠ p.currentState ∧
      Heap.read (getCurrentStateH h p).1 (getCurrentStateH h p).2 = Heap.read h p.currentState ∧
      Heap.read ((getCurrentStateH h p).1.write (getCurrentStateH h p).2 b) p.currentState =
        Heap.read h p.currentState ∧
      Heap.read ((getCurrentStateH h p).1.write (getCurrentStateH h p).2 b) p.initialState =
        Heap.read h p.initialState ∧
      Heap.read ((getCurrentStateH h p).1.write (getCurrentStateH h p).2 b) p.solvedState =
        Heap.read h p.solvedState ∧
      ∀ r ∈ p.historyBoards,
        Heap.read ((getCurrentStateH h p).1.write (getCurrentStateH h p).2 b) r =
          Heap.read h r) ∧
    (∀ (h : Heap) (p : PuzzleRefs), p.wf h → ∀ b : Board,
      (getSolvedStateH h p).2 ≠ p.solvedState ∧
      Heap.read ((getSolvedStateH h p).1.write (getSolvedStateH h p).2 b) p.currentState =
        Heap.read h p.currentState) ∧
    (∀ p : PuzzleRefs,
      (exportStateH p).currentState = p.currentState ∧
      (exportStateH p).initialState = p.initialState ∧
      (exportStateH p).historyBoards = p.historyBoards) := by
  refine ⟨?_, ?_, fun p => ⟨rfl, rfl, rfl⟩⟩
  · intro h p hwf b
    obtain ⟨h1, h2, h3, h4⟩ := hwf
    refine ⟨by simp [getCurrentStateH, clone2DArrayH, Heap.alloc]; omega, ?_, ?_, ?_, ?_, ?_⟩
    · simp [getCurrentStateH, clone2DArrayH, heap_fresh_read, clone2DArray_eq]
    · rw [heap_write_read_ne _ _ _ _ (by simp [getCurrentStateH, clone2DArrayH, Heap.alloc]; omega)]
      exact heap_alloc_read_old _ _ _ h1
    · rw [heap_write_read_ne _ _ _ _ (by simp [getCurrentStateH, clone2DArrayH, Heap.alloc]; omega)]
      exact heap_alloc_read_old _ _ _ h2
    · rw [heap_write_read_ne _ _ _ _ (by simp [getCurrentStateH, clone2DArrayH, Heap.alloc]; omega)]
      exact heap_alloc_read_old _ _ _ h3
    · intro r hr
      rw [heap_write_read_ne _ _ _ _ (by simp [getCurrentStateH, clone2DArrayH, Heap.alloc]; exact Nat.ne_of_lt (h4 r hr))]
      exact heap_alloc_read_old _ _ _ (h4 r hr)
  · intro h p hwf b
    obtain ⟨h1, h2, h3, h4⟩ := hwf
    refine ⟨by simp [getSolvedStateH, clone2DArrayH, Heap.alloc]; omega, ?_⟩
    rw [heap_write_read_ne _ _ _ _ (by simp [getSolvedStateH, clone2DArrayH, Heap.alloc]; omega)]
    exact heap_alloc_read_old _ _ _ h1

/-- Witness for `query_copies_but_export_aliases` at the concrete fixture
heap and session. -/
theorem query_copies_but_export_aliases_witness :
    ((getCurrentStateH heapEx sessionRefs).2 ≠ sessionRefs.currentState ∧
      Heap.read (getCurrentStateH heapEx sessionRefs).1 (getCurrentStateH heapEx sessionRefs).2 =
        Heap.read heapEx sessionRefs.currentState ∧
      Heap.read ((getCurrentStateH heapEx sessionRefs).1.write
          (getCurrentStateH heapEx sessionRefs).2 [[9, 9], [9, 9]]) sessionRefs.currentState =
        Heap.read heapEx sessionRefs.currentState ∧
      Heap.read ((getCurrentStateH heapEx sessionRefs).1.write
          (getCurrentStateH heapEx sessionRefs).2 [[9, 9], [9, 9]]) sessionRefs.initialState =
        Heap.read heapEx sessionRefs.initialState ∧
      Heap.read ((getCurrentStateH heapEx sessionRefs).1.write
          (getCurrentStateH heapEx sessionRefs).2 [[9, 9], [9, 9]]) sessionRefs.solvedState =
        Heap.read heapEx sessionRefs.solvedState ∧
      ∀ r ∈ sessionRefs.historyBoards,
        Heap.read ((getCurrentStateH heapEx sessionRefs).1.write
            (getCurrentStateH heapEx sessionRefs).2 [[9, 9], [9, 9]]) r = Heap.read heapEx r) ∧
    ((exportStateH sessionRefs).currentState = sessionRefs.currentState) :=
  ⟨query_copies_but_export_aliases.1 heapEx sessionRefs
      (by exact ⟨by decide, by decide, by decide, by decide⟩) [[9, 9], [9, 9]],
   (query_copies_but_export_aliases.2.2 sessionRefs).1⟩
